import Mathlib

/-!
Verification of the graph semi-supervised learning solver engine of
`graphlearning.py` (GraphLearning repository).

The Python source is shallowly embedded over exact rationals:

* one-dimensional numpy arrays become `List ℚ` or functions `ℕ → ℚ`;
* sparse matrices become dense functions `ℕ → ℕ → ℚ` together with an
  explicit size, with the convention that the stored (nonzero) pattern of a
  sparse matrix is the set of nonzero entries (scipy's `sparse.find` drops
  explicit zeros, so this convention is faithful);
* numpy fancy assignment `u[I] = g` becomes a sequential fold of `List.set`;
* numpy boolean-mask assignment becomes an explicit scatter along a mask;
* numpy negative-index reads (`u[-1]`) become an explicit wraparound read;
* the external conjugate-gradient solver `scipy.sparse.linalg.cg` is an
  arbitrary function parameter, so theorems about `constrained_solve`
  quantify over every possible solver outcome.

Floating point is replaced by exact rational arithmetic; every claim below
is settled for the exact-arithmetic semantics of the reference code.
-/

namespace GraphLearning

/-! ### numpy array helpers -/

/-- Read `u[i]` for an integer index `i`, with numpy's negative-index
wraparound: a negative `i` reads position `u.length + i`.  Out-of-range
reads return `0` (they do not occur on the executions we reason about). -/
def npGet (u : List ℚ) (i : ℤ) : ℚ :=
  if i < 0 then u.getD (u.length - (-i).toNat) 0 else u.getD i.toNat 0

/-- Fancy assignment `u[I] = g`: positions listed in `I` receive the
corresponding entries of `g`, sequentially (later assignments win). -/
def assignAt (u : List ℚ) (I : List ℕ) (g : List ℚ) : List ℚ :=
  (I.zip g).foldl (fun w p => w.set p.1 p.2) u

/-- Boolean mask `idx` of length `n` with `idx[i] = False` exactly for
`i ∈ I` (the mask built by `idx = np.full(n, True); idx[I] = False`). -/
def maskOf (n : ℕ) (I : List ℕ) : List Bool :=
  (List.range n).map (fun i => !(I.contains i))

/-- Boolean-mask selection `v[idx]`: keep the entries of `v` at the
positions where the mask holds `true`. -/
def maskSelect (v : List ℚ) (m : List Bool) : List ℚ :=
  ((v.zip m).filter (fun p => p.2)).map (fun p => p.1)

/-- Boolean-mask assignment `u[idx] = v`: the positions of `u` where the
mask is `true` receive the successive entries of `v`. -/
def scatterMask : List ℚ → List Bool → List ℚ → List ℚ
  | [], _, _ => []
  | u, [], _ => u
  | x :: u, b :: bs, v =>
    if b then
      match v with
      | [] => x :: scatterMask u bs []
      | y :: vs => y :: scatterMask u bs vs
    else x :: scatterMask u bs v

theorem scatterMask_length : ∀ (u : List ℚ) (m : List Bool) (v : List ℚ),
    (scatterMask u m v).length = u.length := by
  intro u
  induction u with
  | nil => intro m v; simp [scatterMask]
  | cons x u ih =>
    intro m v
    cases m with
    | nil => simp [scatterMask]
    | cons b bs =>
      by_cases hb : b = true
      · cases v with
        | nil => simp [scatterMask, hb, ih]
        | cons y vs => simp [scatterMask, hb, ih]
      · simp at hb
        simp [scatterMask, hb, ih]

theorem getD_set_ne (u : List ℚ) (i j : ℕ) (x d : ℚ) (h : i ≠ j) :
    (u.set i x).getD j d = u.getD j d := by
  induction u generalizing i j with
  | nil => simp
  | cons a u ih =>
    cases i with
    | zero =>
      cases j with
      | zero => exact absurd rfl h
      | succ j => simp [List.set]
    | succ i =>
      cases j with
      | zero => simp [List.set]
      | succ j =>
        simp only [List.set, List.getD_cons_succ]
        exact ih i j (fun hc => h (by rw [hc]))

theorem getD_set_self (u : List ℚ) (i : ℕ) (x d : ℚ) (h : i < u.length) :
    (u.set i x).getD i d = x := by
  induction u generalizing i with
  | nil => simp at h
  | cons a u ih =>
    cases i with
    | zero => simp [List.set]
    | succ i =>
      simp only [List.set, List.getD_cons_succ]
      exact ih i (by simpa using h)

theorem assignAt_length (u : List ℚ) (I : List ℕ) (g : List ℚ) :
    (assignAt u I g).length = u.length := by
  unfold assignAt
  generalize I.zip g = l
  induction l generalizing u with
  | nil => rfl
  | cons p l ih => simpa [List.foldl_cons, List.length_set] using ih (u.set p.1 p.2)

theorem assignAt_getD_not_mem (u : List ℚ) (I : List ℕ) (g : List ℚ) (i : ℕ)
    (h : i ∉ I) : (assignAt u I g).getD i 0 = u.getD i 0 := by
  induction I generalizing u g with
  | nil => simp [assignAt]
  | cons a I ih =>
    cases g with
    | nil => simp [assignAt]
    | cons x g =>
      have hne : a ≠ i := fun hc => h (by simp [hc])
      have hi : i ∉ I := fun hc => h (List.mem_cons_of_mem _ hc)
      calc (assignAt u (a :: I) (x :: g)).getD i 0
          = (assignAt (u.set a x) I g).getD i 0 := by simp [assignAt]
        _ = (u.set a x).getD i 0 := ih (u.set a x) g hi
        _ = u.getD i 0 := getD_set_ne u a i x 0 hne

theorem assignAt_getD (u : List ℚ) (I : List ℕ) (g : List ℚ)
    (hnd : I.Nodup) (hlt : ∀ i ∈ I, i < u.length) (hlen : g.length = I.length) :
    ∀ j, j < I.length → (assignAt u I g).getD (I.getD j 0) 0 = g.getD j 0 := by
  induction I generalizing u g with
  | nil => intro j hj; simp at hj
  | cons a I ih =>
    cases g with
    | nil => intro j hj; simp at hlen
    | cons x g =>
      intro j hj
      have hstep : assignAt u (a :: I) (x :: g) = assignAt (u.set a x) I g := by
        simp [assignAt]
      cases j with
      | zero =>
        have ha : a ∉ I := (List.nodup_cons.mp hnd).1
        rw [hstep]
        simp only [List.getD_cons_zero]
        rw [assignAt_getD_not_mem _ _ _ _ ha]
        exact getD_set_self u a x 0 (hlt a (by simp))
      | succ j =>
        rw [hstep]
        simp only [List.getD_cons_succ]
        refine ih (u.set a x) g (List.nodup_cons.mp hnd).2 ?_ (by simpa using hlen) j (by simpa using hj)
        intro i hi
        rw [List.length_set]
        exact hlt i (List.mem_cons_of_mem _ hi)

/-! ### Constrained sparse solver (`constrained_solve`, graphlearning.py lines 542-580)

The dense matrix `L` is a list of rows.  The external preconditioned
conjugate-gradient call `splinalg.cg(A, b, x0, tol, M)` is modelled by an
arbitrary function parameter `cg` taking the reduced matrix, the reduced
right-hand side and the optional reduced initial guess; the theorems below
hold for every such function, hence for every solver outcome. -/

/-- Dot product of one matrix row with the label vector `g` placed at the
column positions `I`: the entry `(L[:,I]*g)[row]`. -/
def rowDotAt (row : List ℚ) (I : List ℕ) (g : List ℚ) : ℚ :=
  ((I.zip g).map (fun p => row.getD p.1 0 * p.2)).sum

/-- Elementwise sum of two vectors of equal length. -/
def zipAdd (a b : List ℚ) : List ℚ := (a.zip b).map (fun p => p.1 + p.2)

/-- Embedding of `constrained_solve(L, I, g, f, x0, tol)`: solve `Lu = f`
subject to `u[I] = g` by eliminating the labeled rows and columns, calling
the (arbitrary) conjugate-gradient solver `cg` on the reduced system, then
scattering the solver output back (`u[idx] = v`) and finally writing the
labels (`u[I] = g`).  The tolerance only parameterizes the external solver
and is absorbed into `cg`. -/
def constrained_solve (cg : List (List ℚ) → List ℚ → Option (List ℚ) → List ℚ)
    (L : List (List ℚ)) (I : List ℕ) (g : List ℚ)
    (f : Option (List ℚ)) (x0 : Option (List ℚ)) : List ℚ :=
  let n := L.length
  let idx := maskOf n I
  let bfull := L.map (fun row => -(rowDotAt row I g))
  let b0 := maskSelect bfull idx
  let b := match f with
    | none => b0
    | some fv => zipAdd b0 (maskSelect fv idx)
  let A := (((L.zip idx).filter (fun p => p.2)).map (fun p => p.1)).map
      (fun row => maskSelect row idx)
  let v := cg A b (x0.map (fun xv => maskSelect xv idx))
  let u0 := List.replicate n (1 : ℚ)
  let u1 := scatterMask u0 idx v
  assignAt u1 I g

/-- C1: for every Laplacian `L`, unique index list `I` inside `[0,n)`, label
vector `g` of the same length, optional right-hand side and initial guess,
and every possible behaviour of the inner conjugate-gradient solver, the
vector returned by `constrained_solve` equals `g` exactly at the indices
`I`: the constrained coordinates are assigned, not solved. -/
theorem constrained_solve_pins_labels
    (cg : List (List ℚ) → List ℚ → Option (List ℚ) → List ℚ)
    (L : List (List ℚ)) (I : List ℕ) (g : List ℚ)
    (f : Option (List ℚ)) (x0 : Option (List ℚ))
    (hnd : I.Nodup) (hlt : ∀ i ∈ I, i < L.length) (hlen : g.length = I.length) :
    ∀ j, j < I.length →
      (constrained_solve cg L I g f x0).getD (I.getD j 0) 0 = g.getD j 0 := by
  intro j hj
  unfold constrained_solve
  refine assignAt_getD _ I g hnd ?_ hlen j hj
  intro i hi
  rw [scatterMask_length, List.length_replicate]
  exact hlt i hi

/-- Witness for C1 on a concrete 3×3 Laplacian with labels at indices 0 and
2, instantiating the inner solver with an arbitrary concrete function. -/
theorem constrained_solve_pins_labels_witness :
    ([0, 2] : List ℕ).Nodup ∧
      (constrained_solve (fun _ _ _ => [0])
        [[2, -1, 0], [-1, 2, -1], [0, -1, 2]] [0, 2] [3, 4] none none).getD 2 0 = 4 := by
  refine ⟨by decide, ?_⟩
  have h := constrained_solve_pins_labels (fun _ _ _ => [0])
    [[2, -1, 0], [-1, 2, -1], [0, -1, 2]] [0, 2] [3, 4] none none
    (by decide) (by decide) (by decide) 1 (by decide)
  simpa using h

/-! ### Label encoding (`LabelsToVec`, graphlearning.py lines 947-961)

`LabelsToVec(L)` computes `labels = np.unique(L)` (the sorted distinct
values), then runs the in-place loop `for i in range(k): L[L==labels[i]] = i`
on its argument array, and finally builds the one-hot `(k×n)` matrix
`X[L, range(n)] = 1`.  The loop is a caller-visible side effect: the
caller's array ends up holding the remapped values.  The remapped values
are always whole numbers, so the subsequent `astype(int)` is lossless and
is not modelled separately. -/

/-- Sorted list of the distinct values of `L`, as computed by
`np.unique(L)`. -/
def sortedDedup (L : List ℚ) : List ℚ :=
  L.dedup.insertionSort (· ≤ ·)

/-- One pass of the remapping loop: every entry equal to `t` is replaced by
the value `c` (the loop index cast to the array's dtype). -/
def remapStep (L : List ℚ) (t : ℚ) (c : ℚ) : List ℚ :=
  L.map (fun x => if x = t then c else x)

/-- The whole remapping loop `for i in range(k): L[L==labels[i]] = i`,
executed sequentially over the enumerated label list. -/
def remapAll (L : List ℚ) (labels : List ℚ) : List ℚ :=
  labels.enum.foldl (fun acc p => remapStep acc p.2 (p.1 : ℚ)) L

/-- Final contents of the caller's argument array after `LabelsToVec(L)`
returns (the in-place frame effect of the encoding utility). -/
def LabelsToVec_arg (L : List ℚ) : List ℚ :=
  remapAll L (sortedDedup L)

/-- Embedding of `LabelsToVec(L)`: the one-hot `(k×n)` matrix (entry
`X[c,i] = 1` exactly when the remapped value at position `i` is `c`)
together with the sorted distinct label values. -/
def LabelsToVec (L : List ℚ) : (ℕ → ℕ → ℚ) × List ℚ :=
  let labels := sortedDedup L
  let Lr := remapAll L labels
  (fun c i => if Lr.getD i 0 = (c : ℚ) then 1 else 0, labels)

/-- Sequential single-value remapping: the value a single array cell goes
through under the enumerated replacement steps. -/
def applySteps (steps : List (ℕ × ℚ)) (x : ℚ) : ℚ :=
  steps.foldl (fun v p => if v = p.2 then (p.1 : ℚ) else v) x

theorem remapAll_eq_map (L : List ℚ) (labels : List ℚ) :
    remapAll L labels = L.map (applySteps labels.enum) := by
  unfold remapAll applySteps
  generalize labels.enum = steps
  induction steps generalizing L with
  | nil => simp
  | cons s ss ih =>
    simp only [List.foldl_cons]
    rw [show remapStep L s.2 (s.1 : ℚ) = L.map (fun x => if x = s.2 then (s.1 : ℚ) else x) from rfl]
    rw [ih]
    simp [List.map_map, Function.comp]

theorem applySteps_untouched (steps : List (ℕ × ℚ)) (v : ℚ)
    (h : ∀ p ∈ steps, p.2 ≠ v) : applySteps steps v = v := by
  induction steps with
  | nil => rfl
  | cons s ss ih =>
    have hs : v = s.2 → False := fun hc => h s (by simp) hc.symm
    simp only [applySteps, List.foldl_cons, if_neg hs]
    exact ih (fun p hp => h p (by simp [hp]))

theorem applySteps_cons (s : ℕ × ℚ) (ss : List (ℕ × ℚ)) (v : ℚ) :
    applySteps (s :: ss) v = applySteps ss (if v = s.2 then (s.1 : ℚ) else v) := by
  simp only [applySteps, List.foldl_cons]

theorem mem_of_mem_enumFrom {p : ℕ × ℚ} {n : ℕ} {l : List ℚ}
    (h : p ∈ l.enumFrom n) : p.2 ∈ l := by
  have hmap : (l.enumFrom n).map Prod.snd = l := List.enumFrom_map_snd n l
  rw [← hmap]
  exact List.mem_map_of_mem Prod.snd h

theorem applySteps_enumFrom (labels : List ℚ) (n : ℕ) (x : ℚ)
    (hnat : ∀ y ∈ labels, ∃ m : ℕ, (m : ℚ) = y)
    (hsort : labels.Sorted (· < ·))
    (hge : ∀ y ∈ labels, (n : ℚ) ≤ y)
    (hx : x ∈ labels) :
    applySteps (labels.enumFrom n) x = ((n + labels.indexOf x : ℕ) : ℚ) := by
  induction labels generalizing n with
  | nil => simp at hx
  | cons t rest ih =>
    have hrest_gt : ∀ y ∈ rest, t < y := fun y hy => (List.sorted_cons.mp hsort).1 y hy
    have hrest_ge : ∀ y ∈ rest, ((n + 1 : ℕ) : ℚ) ≤ y := by
      intro y hy
      obtain ⟨m, hm⟩ := hnat y (by simp [hy])
      obtain ⟨mt, hmt⟩ := hnat t (by simp)
      have h1 : (n : ℚ) ≤ (mt : ℚ) := hmt ▸ hge t (by simp)
      have h2 : (mt : ℚ) < (m : ℚ) := by rw [hm, hmt]; exact hrest_gt y hy
      have hn : n ≤ mt := by exact_mod_cast h1
      have hmm : mt < m := by exact_mod_cast h2
      rw [← hm]
      exact_mod_cast Nat.succ_le_of_lt (Nat.lt_of_le_of_lt hn hmm)
    have henum : (t :: rest).enumFrom n = (n, t) :: rest.enumFrom (n + 1) := rfl
    rcases List.mem_cons.mp hx with hxt | hxr
    · subst hxt
      rw [henum, applySteps_cons, if_pos rfl]
      have huntouched : applySteps (rest.enumFrom (n + 1)) ((n : ℚ)) = (n : ℚ) := by
        refine applySteps_untouched _ _ ?_
        intro p hp hc
        have hmem2 : p.2 ∈ rest := mem_of_mem_enumFrom hp
        have hle := hrest_ge p.2 hmem2
        rw [hc] at hle
        have : n + 1 ≤ n := by exact_mod_cast hle
        omega
      rw [huntouched, List.indexOf_cons_self]
      norm_num
    · have hxt : x ≠ t := by
        intro hc
        subst hc
        exact absurd rfl (ne_of_gt (hrest_gt x hxr))
      rw [henum, applySteps_cons, if_neg hxt]
      rw [ih (n + 1) (fun y hy => hnat y (by simp [hy])) (List.sorted_cons.mp hsort).2
        hrest_ge hxr]
      congr 1
      rw [List.indexOf_cons_ne _ (Ne.symm hxt)]
      omega

theorem sortedDedup_perm_dedup (L : List ℚ) : (sortedDedup L).Perm L.dedup :=
  List.perm_insertionSort _ _

theorem mem_sortedDedup (L : List ℚ) (x : ℚ) : x ∈ sortedDedup L ↔ x ∈ L := by
  rw [(sortedDedup_perm_dedup L).mem_iff, List.mem_dedup]

theorem sortedDedup_sorted_lt (L : List ℚ) : (sortedDedup L).Sorted (· < ·) := by
  have hs : (sortedDedup L).Sorted (· ≤ ·) := List.sorted_insertionSort _ _
  have hnd : (sortedDedup L).Nodup := (sortedDedup_perm_dedup L).nodup_iff.mpr L.nodup_dedup
  exact List.Sorted.lt_of_le hs hnd

/-- C10 counterexample: on the label array `[-1, 0]` the sequential
in-place loop collides — the entries holding `-1` are first remapped to
`0` and then remapped again together with the original `0` entries — so
the caller's array ends as `[1, 1]` instead of the claimed per-value ranks
`[0, 1]`. -/
theorem LabelsToVec_arg_not_rank :
    LabelsToVec_arg [-1, 0] = [1, 1] ∧
      LabelsToVec_arg [-1, 0] ≠
        ([-1, 0] : List ℚ).map (fun x => (((sortedDedup [-1, 0]).indexOf x : ℕ) : ℚ)) := by
  constructor <;> decide

/-- C10 as amended: `LabelsToVec` does write into its argument array in
place, and when the label values are nonnegative integers (so that no
later label value collides with an already-written index) the caller's
array ends up holding exactly the index of each original value in the
sorted list of distinct labels. -/
theorem LabelsToVec_arg_eq_rank (L : List ℚ)
    (hnat : ∀ x ∈ L, ∃ m : ℕ, (m : ℚ) = x) :
    LabelsToVec_arg L = L.map (fun x => (((sortedDedup L).indexOf x : ℕ) : ℚ)) := by
  unfold LabelsToVec_arg
  rw [remapAll_eq_map]
  refine List.map_congr_left ?_
  intro x hx
  have henum : (sortedDedup L).enum = (sortedDedup L).enumFrom 0 := rfl
  rw [henum]
  have := applySteps_enumFrom (sortedDedup L) 0 x
    (fun y hy => hnat y ((mem_sortedDedup L y).mp hy))
    (sortedDedup_sorted_lt L)
    (fun y hy => by
      obtain ⟨m, hm⟩ := hnat y ((mem_sortedDedup L y).mp hy)
      rw [← hm]
      exact_mod_cast Nat.zero_le m)
    ((mem_sortedDedup L x).mpr hx)
  rw [this]
  norm_num

/-- Witness for C10's amended theorem on the natural-valued label array
`[3, 5, 3]`: the caller's array is remapped in place to the rank values
`[0, 1, 0]`. -/
theorem LabelsToVec_arg_eq_rank_witness :
    (∀ x ∈ ([3, 5, 3] : List ℚ), ∃ m : ℕ, (m : ℚ) = x) ∧
      LabelsToVec_arg [3, 5, 3] = [0, 1, 0] := by
  have hnat : ∀ x ∈ ([3, 5, 3] : List ℚ), ∃ m : ℕ, (m : ℚ) = x := by
    intro x hx
    rcases List.mem_cons.mp hx with h | hx
    · exact ⟨3, by rw [h]; norm_num⟩
    rcases List.mem_cons.mp hx with h | hx
    · exact ⟨5, by rw [h]; norm_num⟩
    rcases List.mem_cons.mp hx with h | hx
    · exact ⟨3, by rw [h]; norm_num⟩
    · simp at hx
  refine ⟨hnat, ?_⟩
  rw [LabelsToVec_arg_eq_rank [3, 5, 3] hnat]
  decide

/-! ### Graph infinity Laplacian (`graph_infinity_laplacian`, graphlearning.py lines 256-267)

The code builds the sparse matrix `M` whose stored entries are
`w(i,j)·(u(j)-u(i))` at the stored (nonzero) positions of `W` and returns
`M.min(axis=1) + M.max(axis=1)`.  scipy's sparse row-wise `min`/`max`
reduce over *all* `n` entries of the row: whenever a row has fewer than
`n` stored entries the implicit zeros take part in the reduction. -/

/-- Stored (nonzero) column indices of row `i` of `W`, as `sparse.find`
produces them. -/
def storedRow (n : ℕ) (W : ℕ → ℕ → ℚ) (i : ℕ) : List ℕ :=
  (List.range n).filter (fun j => decide (W i j ≠ 0))

/-- Stored values of row `i` of the matrix `M` with entries
`w(i,j)·(u(j)-u(i))`. -/
def rowVals (n : ℕ) (W : ℕ → ℕ → ℚ) (u : ℕ → ℚ) (i : ℕ) : List ℚ :=
  (storedRow n W i).map (fun j => W i j * (u j - u i))

/-- Minimum of a nonempty list (the reduction over the stored entries
alone); `0` on the empty list. -/
def listMin : List ℚ → ℚ
  | [] => 0
  | x :: xs => xs.foldl min x

/-- Maximum of a nonempty list; `0` on the empty list. -/
def listMax : List ℚ → ℚ
  | [] => 0
  | x :: xs => xs.foldl max x

/-- scipy sparse row minimum: the reduction ranges over the stored values
and, when the row has implicit zeros (fewer than `n` stored entries), over
`0` as well. -/
def sparseRowMin (n : ℕ) (vals : List ℚ) : ℚ :=
  if vals.length = n then listMin vals else vals.foldl min 0

/-- scipy sparse row maximum, with the same implicit-zero participation. -/
def sparseRowMax (n : ℕ) (vals : List ℚ) : ℚ :=
  if vals.length = n then listMax vals else vals.foldl max 0

/-- Embedding of `graph_infinity_laplacian(W, u)[i]`:
`M.min(axis=1) + M.max(axis=1)` on the sparse matrix of stored entries
`w(i,j)·(u(j)-u(i))`. -/
def graph_infinity_laplacian (n : ℕ) (W : ℕ → ℕ → ℚ) (u : ℕ → ℚ) (i : ℕ) : ℚ :=
  sparseRowMin n (rowVals n W u i) + sparseRowMax n (rowVals n W u i)

theorem foldl_min_min (xs : List ℚ) : ∀ a b : ℚ,
    xs.foldl min (min a b) = min a (xs.foldl min b) := by
  induction xs with
  | nil => intro a b; rfl
  | cons c xs ih =>
    intro a b
    simp only [List.foldl_cons]
    rw [min_assoc, ih]

theorem foldl_max_max (xs : List ℚ) : ∀ a b : ℚ,
    xs.foldl max (max a b) = max a (xs.foldl max b) := by
  induction xs with
  | nil => intro a b; rfl
  | cons c xs ih =>
    intro a b
    simp only [List.foldl_cons]
    rw [max_assoc, ih]

/-- C7 counterexample: on the 3-vertex graph with the single (unit-weight)
edge `0-1` and `u = (0, 5, 0)`, vertex `0` has exactly one neighbor and
`min_j w(0,j)(u(j)-u(0)) + max_j w(0,j)(u(j)-u(0)) = 5 + 5 = 10` over the
stored edges of row `0`, but the code returns `0 + 5 = 5` because scipy's
row minimum also ranges over the implicit zeros of the sparse row. -/
theorem graph_infinity_laplacian_counterexample :
    (rowVals 3 (fun i j => if (i = 0 ∧ j = 1) ∨ (i = 1 ∧ j = 0) then 1 else 0)
        (fun i => if i = 1 then 5 else 0) 0) ≠ [] ∧
    graph_infinity_laplacian 3
        (fun i j => if (i = 0 ∧ j = 1) ∨ (i = 1 ∧ j = 0) then 1 else 0)
        (fun i => if i = 1 then 5 else 0) 0 = 5 ∧
    listMin (rowVals 3 (fun i j => if (i = 0 ∧ j = 1) ∨ (i = 1 ∧ j = 0) then 1 else 0)
        (fun i => if i = 1 then 5 else 0) 0) +
      listMax (rowVals 3 (fun i j => if (i = 0 ∧ j = 1) ∨ (i = 1 ∧ j = 0) then 1 else 0)
        (fun i => if i = 1 then 5 else 0) 0) = 10 := by
  refine ⟨?_, ?_, ?_⟩ <;>
    norm_num [graph_infinity_laplacian, sparseRowMin, sparseRowMax, rowVals, storedRow,
      listMin, listMax, List.range_succ]

/-- C7 as amended: for a vertex `i` with at least one stored edge, the
returned value is the min plus the max of `w(i,j)·(u(j)-u(i))` over the
stored edges of row `i` *clamped by an implicit zero* whenever the row has
fewer than `n` stored entries; only for a fully stored row does the code
compute the claimed pure neighbor min/max sum. -/
theorem graph_infinity_laplacian_eq (n : ℕ) (W : ℕ → ℕ → ℚ) (u : ℕ → ℚ) (i : ℕ)
    (hne : rowVals n W u i ≠ []) :
    graph_infinity_laplacian n W u i =
      (if (rowVals n W u i).length = n then listMin (rowVals n W u i)
        else min 0 (listMin (rowVals n W u i))) +
      (if (rowVals n W u i).length = n then listMax (rowVals n W u i)
        else max 0 (listMax (rowVals n W u i))) := by
  obtain ⟨x, xs, hcons⟩ : ∃ x xs, rowVals n W u i = x :: xs := by
    cases hv : rowVals n W u i with
    | nil => exact absurd hv hne
    | cons x xs => exact ⟨x, xs, rfl⟩
  unfold graph_infinity_laplacian sparseRowMin sparseRowMax
  rw [hcons]
  by_cases hlen : (x :: xs).length = n
  · simp only [if_pos hlen]
  · simp only [if_neg hlen]
    have hmin : (x :: xs).foldl min 0 = min 0 (listMin (x :: xs)) := by
      simp only [List.foldl_cons, listMin]
      exact foldl_min_min xs 0 x
    have hmax : (x :: xs).foldl max 0 = max 0 (listMax (x :: xs)) := by
      simp only [List.foldl_cons, listMax]
      exact foldl_max_max xs 0 x
    rw [hmin, hmax]

/-- Witness for C7's amended theorem at the counterexample's vertex: the
row of vertex `0` is nonempty, underfull, and the returned value is
`min 0 5 + max 0 5 = 5`. -/
theorem graph_infinity_laplacian_eq_witness :
    (rowVals 3 (fun i j => if (i = 1 ∧ j = 2) ∨ (i = 2 ∧ j = 1) then 1 else 0)
        (fun i => if i = 2 then 7 else 0) 1) ≠ [] ∧
    graph_infinity_laplacian 3
        (fun i j => if (i = 1 ∧ j = 2) ∨ (i = 2 ∧ j = 1) then 1 else 0)
        (fun i => if i = 2 then 7 else 0) 1 =
      (if (rowVals 3 (fun i j => if (i = 1 ∧ j = 2) ∨ (i = 2 ∧ j = 1) then 1 else 0)
          (fun i => if i = 2 then 7 else 0) 1).length = 3 then
        listMin (rowVals 3 (fun i j => if (i = 1 ∧ j = 2) ∨ (i = 2 ∧ j = 1) then 1 else 0)
          (fun i => if i = 2 then 7 else 0) 1)
       else min 0 (listMin (rowVals 3 (fun i j => if (i = 1 ∧ j = 2) ∨ (i = 2 ∧ j = 1) then 1 else 0)
          (fun i => if i = 2 then 7 else 0) 1))) +
      (if (rowVals 3 (fun i j => if (i = 1 ∧ j = 2) ∨ (i = 2 ∧ j = 1) then 1 else 0)
          (fun i => if i = 2 then 7 else 0) 1).length = 3 then
        listMax (rowVals 3 (fun i j => if (i = 1 ∧ j = 2) ∨ (i = 2 ∧ j = 1) then 1 else 0)
          (fun i => if i = 2 then 7 else 0) 1)
       else max 0 (listMax (rowVals 3 (fun i j => if (i = 1 ∧ j = 2) ∨ (i = 2 ∧ j = 1) then 1 else 0)
          (fun i => if i = 2 then 7 else 0) 1))) :=
  ⟨by decide, graph_infinity_laplacian_eq 3
    (fun i j => if (i = 1 ∧ j = 2) ∨ (i = 2 ∧ j = 1) then 1 else 0)
    (fun i => if i = 2 then 7 else 0) 1 (by decide)⟩

/-! ### Simplex projection (`ProjectToSimplex`, graphlearning.py lines 931-945)

The numpy code processes the `n` columns of the `(k×n)` input independently
and identically: sort the column descending (`Xs`), form the prefix sums
(`Sum = tril(ones) @ Xs`), the candidate thresholds
(`Max[r] = (Sum[r]-1)/(r+1)`), shift the sorted column up by one slot with
the last threshold appended (`Xs[:-1] = Xs[1:]; Xs[-1] = (Sum[k-1]-1)/k`),
pick the first index where `Max >= Xs` (`np.argmax` of the boolean array),
and clip `X - Max[I]` at zero.  A matrix is embedded as its list of
columns. -/

/-- Descending sort of one column (`-np.sort(-X, axis=0)`). -/
def sortDesc (xs : List ℚ) : List ℚ := xs.insertionSort (· ≥ ·)

/-- Prefix sum `Sum[r]`: the sum of the first `r+1` sorted entries. -/
def prefixSum (ys : List ℚ) (r : ℕ) : ℚ := (ys.take (r + 1)).sum

/-- Candidate threshold `Max[r] = (Sum[r] - 1)/(r+1)`. -/
def thresholdAt (ys : List ℚ) (r : ℕ) : ℚ := (prefixSum ys r - 1) / (r + 1)

/-- The shifted comparison entry at `r`: the next sorted value `Xs[r+1]`
for `r < k-1`, and the final threshold `(Sum[k-1]-1)/k` at `r = k-1`. -/
def shiftedAt (ys : List ℚ) (r : ℕ) : ℚ :=
  if r + 1 < ys.length then ys.getD (r + 1) 0 else thresholdAt ys (ys.length - 1)

/-- Chosen index `I = np.argmax(Max >= Xs_shifted)`: the first `r` with
`Max[r] ≥ Xs_shifted[r]` (`np.argmax` on booleans returns the first
maximal, i.e. the first true, position). -/
def chooseIdx (ys : List ℚ) : ℕ :=
  (List.range ys.length).findIdx (fun r => decide (shiftedAt ys r ≤ thresholdAt ys r))

/-- Projection of a single column onto the probability simplex:
`max(x - Max[I], 0)` entrywise. -/
def ProjectToSimplexCol (xs : List ℚ) : List ℚ :=
  xs.map (fun x => max (x - thresholdAt (sortDesc xs) (chooseIdx (sortDesc xs))) 0)

/-- Embedding of `ProjectToSimplex(X)`: every column of the `(k×n)` matrix
is projected independently. -/
def ProjectToSimplex (X : List (List ℚ)) : List (List ℚ) :=
  X.map ProjectToSimplexCol

theorem sortDesc_perm (xs : List ℚ) : (sortDesc xs).Perm xs :=
  List.perm_insertionSort _ _

theorem sortDesc_pairwise (xs : List ℚ) : (sortDesc xs).Pairwise (· ≥ ·) :=
  List.sorted_insertionSort _ _

theorem chooseIdx_lt (ys : List ℚ) (hk : 0 < ys.length) :
    chooseIdx ys < ys.length := by
  have hmem : (ys.length - 1) ∈ List.range ys.length := by
    rw [List.mem_range]; omega
  have hlast : shiftedAt ys (ys.length - 1) ≤ thresholdAt ys (ys.length - 1) := by
    unfold shiftedAt
    rw [if_neg (by omega)]
  have hex : ∃ r ∈ List.range ys.length,
      decide (shiftedAt ys r ≤ thresholdAt ys r) = true :=
    ⟨ys.length - 1, hmem, decide_eq_true hlast⟩
  have := List.findIdx_lt_length_of_exists hex
  rwa [List.length_range] at this

theorem chooseIdx_cond (ys : List ℚ) (hk : 0 < ys.length) :
    shiftedAt ys (chooseIdx ys) ≤ thresholdAt ys (chooseIdx ys) := by
  have hlt : chooseIdx ys < (List.range ys.length).length := by
    rw [List.length_range]; exact chooseIdx_lt ys hk
  have := List.findIdx_get (p := fun r => decide (shiftedAt ys r ≤ thresholdAt ys r))
    (w := hlt)
  rw [List.get_eq_getElem, List.getElem_range] at this
  exact of_decide_eq_true this

theorem chooseIdx_first (ys : List ℚ) (j : ℕ) (hj : j < chooseIdx ys)
    (hjk : j < ys.length) :
    thresholdAt ys j < shiftedAt ys j := by
  unfold chooseIdx at hj
  have hfalse := List.not_of_lt_findIdx hj
  rw [List.getElem_range] at hfalse
  have hnot := of_decide_eq_false hfalse
  exact lt_of_not_le hnot

theorem prefixSum_zero (ys : List ℚ) (hk : 0 < ys.length) :
    prefixSum ys 0 = ys.getD 0 0 := by
  cases ys with
  | nil => simp at hk
  | cons a l => simp [prefixSum]

theorem prefixSum_succ (ys : List ℚ) (j : ℕ) (hj : j + 1 < ys.length) :
    prefixSum ys (j + 1) = prefixSum ys j + ys.getD (j + 1) 0 := by
  unfold prefixSum
  rw [List.getD_eq_getElem ys 0 hj]
  exact List.sum_take_succ ys (j + 1) hj

theorem theta_lt_rho (ys : List ℚ) (hk : 0 < ys.length) :
    thresholdAt ys (chooseIdx ys) < ys.getD (chooseIdx ys) 0 := by
  cases hρ : chooseIdx ys with
  | zero =>
    unfold thresholdAt
    rw [prefixSum_zero ys hk]
    push_cast
    norm_num
  | succ j =>
    have hρk : chooseIdx ys < ys.length := chooseIdx_lt ys hk
    rw [hρ] at hρk
    have hprev := chooseIdx_first ys j (by omega) (by omega)
    have hshift : shiftedAt ys j = ys.getD (j + 1) 0 := by
      unfold shiftedAt
      rw [if_pos hρk]
    rw [hshift] at hprev
    unfold thresholdAt at hprev ⊢
    set y := ys.getD (j + 1) 0 with hy
    have hsum : prefixSum ys (j + 1) = prefixSum ys j + y :=
      prefixSum_succ ys j hρk
    rw [hsum]
    have hj1 : (0 : ℚ) < (j : ℚ) + 1 := by positivity
    have hj2 : (0 : ℚ) < ((j : ℚ) + 1) + 1 := by positivity
    rw [div_lt_iff hj1] at hprev
    push_cast
    rw [div_lt_iff (by push_cast at hj2 ⊢; linarith)]
    ring_nf
    ring_nf at hprev
    linarith

theorem mem_take_gt (ys : List ℚ) (hpw : ys.Pairwise (· ≥ ·)) (ρ : ℕ)
    (hρk : ρ < ys.length) (θ : ℚ) (hθ : θ < ys.getD ρ 0) :
    ∀ x ∈ ys.take (ρ + 1), θ < x := by
  intro x hx
  obtain ⟨t, ht, hxt⟩ := List.mem_iff_getElem.mp hx
  have htlen : t < ρ + 1 := by
    have := ht
    rw [List.length_take] at this
    omega
  have htk : t < ys.length := by omega
  have hxeq : x = ys[t] := by
    rw [← hxt, List.getElem_take]
  rw [List.getD_eq_getElem ys 0 hρk] at hθ
  rcases Nat.lt_or_ge t ρ with hlt | hge
  · have hrel : ys[ρ] ≤ ys[t] := by
      rw [List.pairwise_iff_getElem] at hpw
      exact hpw t ρ htk hρk hlt
    rw [hxeq]; linarith
  · have hteq : t = ρ := by omega
    subst hteq
    rw [hxeq]; exact hθ

theorem mem_drop_le (ys : List ℚ) (hpw : ys.Pairwise (· ≥ ·)) (hk : 0 < ys.length) :
    ∀ x ∈ ys.drop (chooseIdx ys + 1), x ≤ thresholdAt ys (chooseIdx ys) := by
  intro x hx
  obtain ⟨t, ht, hxt⟩ := List.mem_iff_getElem.mp hx
  have htk : chooseIdx ys + 1 + t < ys.length := by
    have := ht
    rw [List.length_drop] at this
    omega
  have hsucc : chooseIdx ys + 1 < ys.length := by omega
  have hxeq : x = ys[chooseIdx ys + 1 + t] := by
    rw [← hxt, List.getElem_drop]
  have hshift : shiftedAt ys (chooseIdx ys) = ys.getD (chooseIdx ys + 1) 0 := by
    unfold shiftedAt
    rw [if_pos hsucc]
  have hcond := chooseIdx_cond ys hk
  rw [hshift, List.getD_eq_getElem ys 0 hsucc] at hcond
  rcases Nat.eq_zero_or_pos t with ht0 | htpos
  · subst ht0
    rw [hxeq]
    simpa using hcond
  · have hrel : ys[chooseIdx ys + 1 + t] ≤ ys[chooseIdx ys + 1] := by
      rw [List.pairwise_iff_getElem] at hpw
      exact hpw (chooseIdx ys + 1) (chooseIdx ys + 1 + t) hsucc htk (by omega)
    rw [hxeq]; linarith

theorem sum_map_sub_const (l : List ℚ) (θ : ℚ) :
    (l.map (fun x => x - θ)).sum = l.sum - l.length * θ := by
  induction l with
  | nil => simp
  | cons a l ih =>
    simp only [List.map_cons, List.sum_cons, List.length_cons, ih]
    push_cast
    ring

theorem projCol_sum (xs : List ℚ) (h : xs ≠ []) :
    (ProjectToSimplexCol xs).sum = 1 := by
  have hperm : (sortDesc xs).Perm xs := sortDesc_perm xs
  have hk : 0 < (sortDesc xs).length := by
    rw [hperm.length_eq]
    exact List.length_pos.mpr h
  set ys := sortDesc xs with hys
  set ρ := chooseIdx ys with hρdef
  set θ := thresholdAt ys ρ with hθdef
  have hρk : ρ < ys.length := chooseIdx_lt ys hk
  have hsplit : ys = ys.take (ρ + 1) ++ ys.drop (ρ + 1) := (List.take_append_drop _ _).symm
  have hmapperm : (xs.map (fun x => max (x - θ) 0)).Perm
      (ys.map (fun x => max (x - θ) 0)) := (hperm.map _).symm
  have hsum1 : (ProjectToSimplexCol xs).sum = (ys.map (fun x => max (x - θ) 0)).sum := by
    unfold ProjectToSimplexCol
    exact hmapperm.sum_eq
  rw [hsum1]
  have htake : ((ys.take (ρ + 1)).map (fun x => max (x - θ) 0)).sum
      = prefixSum ys ρ - (ρ + 1) * θ := by
    have hgt := mem_take_gt ys (sortDesc_pairwise xs) ρ hρk θ (theta_lt_rho ys hk)
    have hcongr : (ys.take (ρ + 1)).map (fun x => max (x - θ) 0)
        = (ys.take (ρ + 1)).map (fun x => x - θ) := by
      refine List.map_congr_left ?_
      intro x hx
      have := hgt x hx
      rw [max_eq_left (by linarith)]
    rw [hcongr, sum_map_sub_const]
    have hlen : (ys.take (ρ + 1)).length = ρ + 1 := by
      rw [List.length_take]
      omega
    rw [hlen]
    push_cast
    rfl
  have hdrop : ((ys.drop (ρ + 1)).map (fun x => max (x - θ) 0)).sum = 0 := by
    have hle := mem_drop_le ys (sortDesc_pairwise xs) hk
    refine List.sum_eq_zero ?_
    intro x hx
    obtain ⟨y, hy, hyx⟩ := List.mem_map.mp hx
    have := hle y hy
    rw [← hyx, max_eq_right (by linarith)]
  calc (ys.map (fun x => max (x - θ) 0)).sum
      = ((ys.take (ρ + 1)).map (fun x => max (x - θ) 0)).sum
        + ((ys.drop (ρ + 1)).map (fun x => max (x - θ) 0)).sum := by
        conv_lhs => rw [hsplit]
        rw [List.map_append, List.sum_append]
    _ = prefixSum ys ρ - (ρ + 1) * θ := by rw [htake, hdrop, add_zero]
    _ = 1 := by
        rw [hθdef]
        unfold thresholdAt
        field_simp

theorem projCol_nonneg (xs : List ℚ) :
    ∀ x ∈ ProjectToSimplexCol xs, 0 ≤ x := by
  intro x hx
  obtain ⟨y, _, hyx⟩ := List.mem_map.mp hx
  rw [← hyx]
  exact le_max_right _ _

theorem theta_eq_zero_of_simplex (xs : List ℚ) (h : xs ≠ [])
    (hnn : ∀ x ∈ xs, 0 ≤ x) (hsum : xs.sum = 1) :
    thresholdAt (sortDesc xs) (chooseIdx (sortDesc xs)) = 0 := by
  have hperm : (sortDesc xs).Perm xs := sortDesc_perm xs
  have hk : 0 < (sortDesc xs).length := by
    rw [hperm.length_eq]
    exact List.length_pos.mpr h
  set ys := sortDesc xs with hys
  set ρ := chooseIdx ys with hρdef
  have hρk : ρ < ys.length := chooseIdx_lt ys hk
  have hysum : ys.sum = 1 := by rw [hperm.sum_eq]; exact hsum
  have hynn : ∀ x ∈ ys, 0 ≤ x := fun x hx => hnn x (hperm.mem_iff.mp hx)
  have hsplitsum : prefixSum ys ρ + (ys.drop (ρ + 1)).sum = 1 := by
    have : (ys.take (ρ + 1)).sum + (ys.drop (ρ + 1)).sum = ys.sum := by
      rw [← List.sum_append, List.take_append_drop]
    unfold prefixSum
    rw [this, hysum]
  rcases Nat.lt_or_ge (ρ + 1) ys.length with hlt | hge
  · -- the chosen condition compares against the next sorted value
    have hcond := chooseIdx_cond ys hk
    have hshift : shiftedAt ys ρ = ys.getD (ρ + 1) 0 := by
      unfold shiftedAt
      rw [if_pos hlt]
    rw [hshift] at hcond
    set y := ys.getD (ρ + 1) 0 with hy
    have hymem : y ∈ ys := by
      rw [hy, List.getD_eq_getElem ys 0 hlt]
      exact List.getElem_mem _
    have hynn2 : 0 ≤ y := hynn y hymem
    have hdropnn : 0 ≤ (ys.drop (ρ + 2)).sum := by
      refine List.sum_nonneg ?_
      intro x hx
      exact hynn x (List.mem_of_mem_drop hx)
    have hdropcons : ys.drop (ρ + 1) = y :: ys.drop (ρ + 2) := by
      rw [hy, List.getD_eq_getElem ys 0 hlt]
      exact List.drop_eq_getElem_cons hlt
    have hbound : prefixSum ys ρ + y ≤ 1 := by
      rw [hdropcons] at hsplitsum
      simp only [List.sum_cons] at hsplitsum
      linarith
    have hcanc : ((ρ : ℚ) + 1) * y ≤ prefixSum ys ρ - 1 := by
      have hpos : (0 : ℚ) < (ρ : ℚ) + 1 := by positivity
      rw [thresholdAt, le_div_iff hpos] at hcond
      linarith
    have hy0 : y = 0 := by
      have : ((ρ : ℚ) + 2) * y ≤ 0 := by linarith
      nlinarith
    -- all entries past ρ vanish, so the prefix carries the whole unit mass
    have hdropzero : (ys.drop (ρ + 1)).sum = 0 := by
      refine List.sum_eq_zero ?_
      intro x hx
      obtain ⟨t, ht, hxt⟩ := List.mem_iff_getElem.mp hx
      have htk : ρ + 1 + t < ys.length := by
        have := ht
        rw [List.length_drop] at this
        omega
      have hxeq : x = ys[ρ + 1 + t] := by rw [← hxt, List.getElem_drop]
      have hxle : x ≤ y := by
        rcases Nat.eq_zero_or_pos t with ht0 | htpos
        · subst ht0
          rw [hxeq, hy, List.getD_eq_getElem ys 0 hlt]
        · have hpw := sortDesc_pairwise xs
          rw [List.pairwise_iff_getElem] at hpw
          have := hpw (ρ + 1) (ρ + 1 + t) hlt htk (by omega)
          rw [hxeq, hy, List.getD_eq_getElem ys 0 hlt]
          exact this
      have hxnn : 0 ≤ x := hynn x (List.mem_of_mem_drop hx)
      linarith [hy0 ▸ hxle]
    have hpre : prefixSum ys ρ = 1 := by linarith
    rw [thresholdAt, hpre]
    simp
  · -- the chosen index is the last slot: the prefix is the whole column
    have htake : ys.take (ρ + 1) = ys := List.take_of_length_le hge
    have hpre : prefixSum ys ρ = 1 := by
      unfold prefixSum
      rw [htake, hysum]
    rw [thresholdAt, hpre]
    simp

theorem projCol_fixed (xs : List ℚ) (h : xs ≠ [])
    (hnn : ∀ x ∈ xs, 0 ≤ x) (hsum : xs.sum = 1) :
    ProjectToSimplexCol xs = xs := by
  unfold ProjectToSimplexCol
  rw [theta_eq_zero_of_simplex xs h hnn hsum]
  have : ∀ x ∈ xs, max (x - 0) 0 = x := by
    intro x hx
    rw [sub_zero, max_eq_left (hnn x hx)]
  calc xs.map (fun x => max (x - 0) 0) = xs.map id := List.map_congr_left this
    _ = xs := List.map_id xs

theorem projCol_ne_nil (xs : List ℚ) (h : xs ≠ []) : ProjectToSimplexCol xs ≠ [] := by
  unfold ProjectToSimplexCol
  simpa using h

/-- C6: for every real `(k×n)` matrix with `k ≥ 1` (given as its list of
nonempty columns), every column of `ProjectToSimplex(X)` is entrywise
nonnegative and sums exactly to `1`, and the projection is idempotent:
projecting twice equals projecting once. -/
theorem ProjectToSimplex_simplex_idempotent (X : List (List ℚ))
    (hk : ∀ col ∈ X, col ≠ []) :
    (∀ col ∈ ProjectToSimplex X, (∀ x ∈ col, 0 ≤ x) ∧ col.sum = 1) ∧
      ProjectToSimplex (ProjectToSimplex X) = ProjectToSimplex X := by
  constructor
  · intro col hcol
    obtain ⟨c, hc, hcc⟩ := List.mem_map.mp hcol
    rw [← hcc]
    exact ⟨projCol_nonneg c, projCol_sum c (hk c hc)⟩
  · unfold ProjectToSimplex
    rw [List.map_map]
    refine List.map_congr_left ?_
    intro c hc
    have h1 : ProjectToSimplexCol c ≠ [] := projCol_ne_nil c (hk c hc)
    exact projCol_fixed (ProjectToSimplexCol c) h1 (projCol_nonneg c) (projCol_sum c (hk c hc))

/-- Witness for C6 on the concrete 2×2 matrix with columns `(3, 0)` and
`(1/2, 1/4)`. -/
theorem ProjectToSimplex_simplex_idempotent_witness :
    (∀ col ∈ [[(3 : ℚ), 0], [1/2, 1/4]], col ≠ []) ∧
      ((∀ col ∈ ProjectToSimplex [[(3 : ℚ), 0], [1/2, 1/4]],
          (∀ x ∈ col, 0 ≤ x) ∧ col.sum = 1) ∧
        ProjectToSimplex (ProjectToSimplex [[(3 : ℚ), 0], [1/2, 1/4]])
          = ProjectToSimplex [[(3 : ℚ), 0], [1/2, 1/4]]) := by
  constructor
  · intro col hcol
    rcases List.mem_cons.mp hcol with h | hcol
    · rw [h]; simp
    rcases List.mem_cons.mp hcol with h | hcol
    · rw [h]; simp
    · simp at hcol
  · exact ProjectToSimplex_simplex_idempotent [[(3 : ℚ), 0], [1/2, 1/4]]
      (by
        intro col hcol
        rcases List.mem_cons.mp hcol with h | hcol
        · rw [h]; simp
        rcases List.mem_cons.mp hcol with h | hcol
        · rw [h]; simp
        · simp at hcol)

/-! ### Indexed binary heap (`SiftUp`/`SiftDown`/`PopHeap`/`PushHeap`,
graphlearning.py lines 1612-1686)

The three parallel arrays are embedded as total functions: `d : ℕ → ℚ`
(key per vertex), `h : ℕ → ℕ` (vertex stored at each 1-indexed heap slot;
slot `0` unused), `p : ℕ → ℕ` (heap slot per vertex), with the occupied
slots `1..s`.  A swap of two heap slots followed by the two sequential
pointer writes `p[h[i]] = i; p[h[pi]] = pi` is embedded with the second
write winning on a key collision, exactly as numpy executes them. -/

/-- Swap the contents of heap slots `a` and `b`. -/
def swapSlots (h : ℕ → ℕ) (a b : ℕ) : ℕ → ℕ :=
  fun t => if t = a then h b else if t = b then h a else h t

/-- The two sequential pointer writes after a swap: first `p[h1[a]] = a`,
then `p[h1[b]] = b` (the later write wins). -/
def fixPtr (h1 : ℕ → ℕ) (p : ℕ → ℕ) (a b : ℕ) : ℕ → ℕ :=
  fun v => if v = h1 b then b else if v = h1 a then a else p v

/-- Embedding of `SiftUp(d, h, s, p, i)`: while the parent slot
`pi = i/2` is nonzero and holds a strictly larger key, swap with the
parent and continue from it.  Returns the updated `(h, p)`. -/
def SiftUp (d : ℕ → ℚ) (h p : ℕ → ℕ) (i : ℕ) : (ℕ → ℕ) × (ℕ → ℕ) :=
  if hi : i < 2 then (h, p)
  else if d (h i) < d (h (i / 2)) then
    SiftUp d (swapSlots h i (i / 2)) (fixPtr (swapSlots h i (i / 2)) p i (i / 2)) (i / 2)
  else (h, p)
termination_by i
decreasing_by
  exact Nat.div_lt_self (by omega) (by omega)

/-- Child slot examined by `SiftDown`: the code evaluates
`d[h[ci+1]] < d[h[ci]] and ci+1 <= s` left to right, so the out-of-range
read of slot `ci+1` happens but the conjunction discards it. -/
def pickChild (d : ℕ → ℚ) (h : ℕ → ℕ) (s i : ℕ) : ℕ :=
  if d (h (2 * i + 1)) < d (h (2 * i)) ∧ 2 * i + 1 ≤ s then 2 * i + 1 else 2 * i

/-- Embedding of `SiftDown(d, h, s, p, i)`: while the child slot
`ci = 2i` is within the heap, pick the smaller in-range child and swap
when it beats the current slot. -/
def SiftDown (d : ℕ → ℚ) (h p : ℕ → ℕ) (s i : ℕ) : (ℕ → ℕ) × (ℕ → ℕ) :=
  if hci : 2 * i ≤ s then
    if hlt : d (h (pickChild d h s i)) < d (h i) then
      SiftDown d (swapSlots h (pickChild d h s i) i)
        (fixPtr (swapSlots h (pickChild d h s i) i) p (pickChild d h s i) i)
        s (pickChild d h s i)
    else (h, p)
  else (h, p)
termination_by s + 1 - i
decreasing_by
  unfold pickChild at *
  by_cases hc : d (h (2 * i + 1)) < d (h (2 * i)) ∧ 2 * i + 1 ≤ s
  · rw [if_pos hc] at *
    omega
  · rw [if_neg hc] at *
    rcases Nat.eq_zero_or_pos i with h0 | hpos
    · subst h0
      simp at hlt
    · omega

/-- Embedding of `PopHeap(d, h, s, p)`: report the root vertex, move the
last occupied slot to the root, fix its pointer, sift down on the
shrunken heap, and return the new size `s - 1`. -/
def PopHeap (d : ℕ → ℚ) (h p : ℕ → ℕ) (s : ℕ) : ℕ × ((ℕ → ℕ) × (ℕ → ℕ)) × ℕ :=
  let i := h 1
  let h1 := fun t => if t = 1 then h s else h t
  let p1 := fun v => if v = h1 1 then 1 else p v
  (i, SiftDown d h1 p1 (s - 1) 1, s - 1)

/-- Embedding of `PushHeap(d, h, s, p, i)`: append vertex `i` at slot
`s + 1`, point `p[i]` there, sift up, and return the new size `s + 1`. -/
def PushHeap (d : ℕ → ℚ) (h p : ℕ → ℕ) (s i : ℕ) : ((ℕ → ℕ) × (ℕ → ℕ)) × ℕ :=
  let h1 := fun t => if t = s + 1 then i else h t
  let p1 := fun v => if v = i then s + 1 else p v
  (SiftUp d h1 p1 (s + 1), s + 1)

/-- Min-heap order on the occupied slots: every slot `t ∈ [2, s]` holds a
key no smaller than its parent slot `t/2`. -/
def heapOrd (d : ℕ → ℚ) (h : ℕ → ℕ) (s : ℕ) : Prop :=
  ∀ t ∈ Finset.Icc 2 s, d (h (t / 2)) ≤ d (h t)

/-- Back-pointer consistency on the occupied slots: `p[h[t]] = t`. -/
def heapPtr (h p : ℕ → ℕ) (s : ℕ) : Prop :=
  ∀ t ∈ Finset.Icc 1 s, p (h t) = t

/-- The full heap invariant of the spec. -/
def HeapInv (d : ℕ → ℚ) (h p : ℕ → ℕ) (s : ℕ) : Prop :=
  heapOrd d h s ∧ heapPtr h p s

theorem heapPtr_inj (h p : ℕ → ℕ) (s : ℕ) (hptr : heapPtr h p s)
    (a b : ℕ) (ha : 1 ≤ a) (has : a ≤ s) (hb : 1 ≤ b) (hbs : b ≤ s)
    (heq : h a = h b) : a = b := by
  have h1 := hptr a (Finset.mem_Icc.mpr ⟨ha, has⟩)
  have h2 := hptr b (Finset.mem_Icc.mpr ⟨hb, hbs⟩)
  rw [heq] at h1
  rw [h1] at h2
  exact h2

theorem swapSlots_fst (h : ℕ → ℕ) (a b : ℕ) : swapSlots h a b a = h b := by
  unfold swapSlots
  simp

theorem swapSlots_snd (h : ℕ → ℕ) (a b : ℕ) (hab : a ≠ b) : swapSlots h a b b = h a := by
  unfold swapSlots
  rw [if_neg (Ne.symm hab), if_pos rfl]

theorem swapSlots_other (h : ℕ → ℕ) (a b t : ℕ) (hta : t ≠ a) (htb : t ≠ b) :
    swapSlots h a b t = h t := by
  unfold swapSlots
  rw [if_neg hta, if_neg htb]

theorem swap_heapPtr (h p : ℕ → ℕ) (s a b : ℕ)
    (ha : 1 ≤ a) (has : a ≤ s) (hb : 1 ≤ b) (hbs : b ≤ s) (hab : a ≠ b)
    (hptr : heapPtr h p s) :
    heapPtr (swapSlots h a b) (fixPtr (swapSlots h a b) p a b) s := by
  intro t ht
  rw [Finset.mem_Icc] at ht
  have hvne : h a ≠ h b := fun hc => hab (heapPtr_inj h p s hptr a b ha has hb hbs hc)
  by_cases hta : t = a
  · subst hta
    rw [swapSlots_fst]
    unfold fixPtr
    rw [swapSlots_snd _ _ _ hab, swapSlots_fst]
    rw [if_neg (Ne.symm hvne), if_pos rfl]
  · by_cases htb : t = b
    · subst htb
      rw [swapSlots_snd _ _ _ hab]
      unfold fixPtr
      rw [swapSlots_snd _ _ _ hab]
      rw [if_pos rfl]
    · rw [swapSlots_other _ _ _ _ hta htb]
      unfold fixPtr
      rw [swapSlots_snd _ _ _ hab, swapSlots_fst]
      have h1 : h t ≠ h a := fun hc => hta (heapPtr_inj h p s hptr t a ht.1 ht.2 ha has hc)
      have h2 : h t ≠ h b := fun hc => htb (heapPtr_inj h p s hptr t b ht.1 ht.2 hb hbs hc)
      rw [if_neg h1, if_neg h2]
      exact hptr t (Finset.mem_Icc.mpr ht)

theorem SiftUp_correct (d : ℕ → ℚ) (s : ℕ) :
    ∀ j (h p : ℕ → ℕ), 1 ≤ j → j ≤ s →
    (∀ t ∈ Finset.Icc 2 s, t ≠ j → d (h (t / 2)) ≤ d (h t)) →
    (2 ≤ j → ∀ t ∈ Finset.Icc 2 s, t / 2 = j → d (h (j / 2)) ≤ d (h t)) →
    heapPtr h p s →
    heapOrd d (SiftUp d h p j).1 s ∧ heapPtr (SiftUp d h p j).1 (SiftUp d h p j).2 s := by
  intro j
  induction j using Nat.strong_induction_on with
  | _ j ih =>
  intro h p hj1 hjs hA hB hptr
  by_cases hj2 : j < 2
  · rw [SiftUp, dif_pos hj2]
    refine ⟨?_, hptr⟩
    intro t ht
    have htm := Finset.mem_Icc.mp ht
    exact hA t ht (by omega)
  · rw [SiftUp, dif_neg hj2]
    by_cases hswap : d (h j) < d (h (j / 2))
    · rw [if_pos hswap]
      have hpi1 : 1 ≤ j / 2 := by omega
      have hpilt : j / 2 < j := by omega
      have hpis : j / 2 ≤ s := by omega
      have hjne : j ≠ j / 2 := by omega
      have hptr1 : heapPtr (swapSlots h j (j / 2))
          (fixPtr (swapSlots h j (j / 2)) p j (j / 2)) s :=
        swap_heapPtr h p s j (j / 2) hj1 hjs hpi1 hpis hjne hptr
      have e1 : swapSlots h j (j / 2) j = h (j / 2) := swapSlots_fst h j (j / 2)
      have e2 : swapSlots h j (j / 2) (j / 2) = h j := swapSlots_snd h j (j / 2) hjne
      have e3 : ∀ t, t ≠ j → t ≠ j / 2 → swapSlots h j (j / 2) t = h t :=
        fun t => swapSlots_other h j (j / 2) t
      have hA' : ∀ t ∈ Finset.Icc 2 s, t ≠ j / 2 →
          d (swapSlots h j (j / 2) (t / 2)) ≤ d (swapSlots h j (j / 2) t) := by
        intro t ht htpi
        have htm := Finset.mem_Icc.mp ht
        by_cases htj : t = j
        · subst htj
          rw [e1, e2]
          exact le_of_lt hswap
        · by_cases htp2 : t / 2 = j / 2
          · rw [htp2, e2, e3 t htj htpi]
            have old := hA t ht htj
            rw [htp2] at old
            exact le_trans (le_of_lt hswap) old
          · by_cases htpj : t / 2 = j
            · rw [htpj, e1, e3 t htj htpi]
              exact hB (by omega) t ht htpj
            · rw [e3 t htj htpi, e3 (t / 2) htpj htp2]
              exact hA t ht htj
      have hB' : 2 ≤ j / 2 → ∀ t ∈ Finset.Icc 2 s, t / 2 = j / 2 →
          d (swapSlots h j (j / 2) (j / 2 / 2)) ≤ d (swapSlots h j (j / 2) t) := by
        intro hpi2 t ht htp
        have htm := Finset.mem_Icc.mp ht
        have hpp : j / 2 / 2 ≠ j := by omega
        have hpp2 : j / 2 / 2 ≠ j / 2 := by omega
        rw [e3 (j / 2 / 2) hpp hpp2]
        by_cases htj : t = j
        · rw [htj, e1]
          exact hA (j / 2) (Finset.mem_Icc.mpr ⟨hpi2, hpis⟩) (by omega)
        · have htpi : t ≠ j / 2 := by omega
          rw [e3 t htj htpi]
          have o1 := hA t ht htj
          rw [htp] at o1
          have o2 := hA (j / 2) (Finset.mem_Icc.mpr ⟨hpi2, hpis⟩) (by omega)
          exact le_trans o2 o1
      exact ih (j / 2) hpilt (swapSlots h j (j / 2))
        (fixPtr (swapSlots h j (j / 2)) p j (j / 2)) hpi1 hpis hA' hB' hptr1
    · rw [if_neg hswap]
      refine ⟨?_, hptr⟩
      intro t ht
      by_cases htj : t = j
      · subst htj
        exact le_of_not_lt hswap
      · exact hA t ht htj

theorem pickChild_le (d : ℕ → ℚ) (h : ℕ → ℕ) (s j : ℕ) (hj : 2 * j ≤ s) :
    pickChild d h s j ≤ s := by
  unfold pickChild
  by_cases hc : d (h (2 * j + 1)) < d (h (2 * j)) ∧ 2 * j + 1 ≤ s
  · rw [if_pos hc]; exact hc.2
  · rw [if_neg hc]; exact hj

theorem pickChild_gt (d : ℕ → ℚ) (h : ℕ → ℕ) (s j : ℕ) (hj : 1 ≤ j) :
    j < pickChild d h s j := by
  unfold pickChild
  by_cases hc : d (h (2 * j + 1)) < d (h (2 * j)) ∧ 2 * j + 1 ≤ s
  · rw [if_pos hc]; omega
  · rw [if_neg hc]; omega

theorem pickChild_half (d : ℕ → ℚ) (h : ℕ → ℕ) (s j : ℕ) :
    pickChild d h s j / 2 = j := by
  unfold pickChild
  by_cases hc : d (h (2 * j + 1)) < d (h (2 * j)) ∧ 2 * j + 1 ≤ s
  · rw [if_pos hc]; omega
  · rw [if_neg hc]; omega

theorem pickChild_min (d : ℕ → ℚ) (h : ℕ → ℕ) (s j : ℕ) :
    ∀ o, (o = 2 * j ∨ o = 2 * j + 1) → o ≤ s →
      d (h (pickChild d h s j)) ≤ d (h o) := by
  intro o ho hos
  unfold pickChild
  by_cases hc : d (h (2 * j + 1)) < d (h (2 * j)) ∧ 2 * j + 1 ≤ s
  · rw [if_pos hc]
    rcases ho with h1 | h1 <;> subst h1
    · exact le_of_lt hc.1
    · exact le_refl _
  · rw [if_neg hc]
    rcases ho with h1 | h1 <;> subst h1
    · exact le_refl _
    · push_neg at hc
      exact le_of_not_lt (fun hlt => absurd hos (not_le.mpr (hc hlt)))

theorem SiftDown_correct (d : ℕ → ℚ) (s : ℕ) :
    ∀ m j (h p : ℕ → ℕ), s + 1 - j ≤ m → 1 ≤ j →
    (∀ t ∈ Finset.Icc 2 s, t / 2 ≠ j → d (h (t / 2)) ≤ d (h t)) →
    (2 ≤ j → ∀ t ∈ Finset.Icc 2 s, t / 2 = j → d (h (j / 2)) ≤ d (h t)) →
    heapPtr h p s →
    heapOrd d (SiftDown d h p s j).1 s ∧
      heapPtr (SiftDown d h p s j).1 (SiftDown d h p s j).2 s := by
  intro m
  induction m with
  | zero =>
    intro j h p hm hj1 hA hB hptr
    have hjs : s < j := by omega
    rw [SiftDown, dif_neg (by omega : ¬ 2 * j ≤ s)]
    refine ⟨?_, hptr⟩
    intro t ht
    have htm := Finset.mem_Icc.mp ht
    exact hA t ht (by omega)
  | succ m ihm =>
    intro j h p hm hj1 hA hB hptr
    rw [SiftDown]
    by_cases hci : 2 * j ≤ s
    · rw [dif_pos hci]
      have hc_le : pickChild d h s j ≤ s := pickChild_le d h s j hci
      have hc_gt : j < pickChild d h s j := pickChild_gt d h s j hj1
      have hc_half : pickChild d h s j / 2 = j := pickChild_half d h s j
      have hc_ne : pickChild d h s j ≠ j := by omega
      have hc_min := pickChild_min d h s j
      have hc_two : 2 ≤ pickChild d h s j := by
        have : 2 * j = pickChild d h s j ∨ 2 * j + 1 = pickChild d h s j := by
          unfold pickChild
          by_cases hc : d (h (2 * j + 1)) < d (h (2 * j)) ∧ 2 * j + 1 ≤ s
          · rw [if_pos hc]; right; rfl
          · rw [if_neg hc]; left; rfl
        omega
      set c := pickChild d h s j with hcdef
      by_cases hlt : d (h c) < d (h j)
      · rw [dif_pos hlt]
        have e1 : swapSlots h c j c = h j := swapSlots_fst h c j
        have e2 : swapSlots h c j j = h c := swapSlots_snd h c j hc_ne
        have e3 : ∀ t, t ≠ c → t ≠ j → swapSlots h c j t = h t :=
          fun t => swapSlots_other h c j t
        have hptr1 : heapPtr (swapSlots h c j) (fixPtr (swapSlots h c j) p c j) s :=
          swap_heapPtr h p s c j (by omega) hc_le hj1 (by omega) hc_ne hptr
        have hA' : ∀ t ∈ Finset.Icc 2 s, t / 2 ≠ c →
            d (swapSlots h c j (t / 2)) ≤ d (swapSlots h c j t) := by
          intro t ht htc
          have htm := Finset.mem_Icc.mp ht
          by_cases htceq : t = c
          · rw [htceq, hc_half, e1, e2]
            exact le_of_lt hlt
          · by_cases htj : t = j
            · have hj2 : 2 ≤ j := by omega
              have hjp1 : j / 2 ≠ c := by omega
              have hjp2 : j / 2 ≠ j := by omega
              rw [htj, e2, e3 (j / 2) hjp1 hjp2]
              exact hB hj2 c (Finset.mem_Icc.mpr ⟨hc_two, hc_le⟩) hc_half
            · by_cases htpj : t / 2 = j
              · rw [htpj, e2, e3 t htceq htj]
                exact hc_min t (by omega) htm.2
              · rw [e3 t htceq htj, e3 (t / 2) htc htpj]
                exact hA t ht htpj
        have hB' : 2 ≤ c → ∀ t ∈ Finset.Icc 2 s, t / 2 = c →
            d (swapSlots h c j (c / 2)) ≤ d (swapSlots h c j t) := by
          intro _ t ht htp
          have htm := Finset.mem_Icc.mp ht
          have htne1 : t ≠ c := by omega
          have htne2 : t ≠ j := by omega
          rw [hc_half, e2, e3 t htne1 htne2]
          have := hA t ht (by omega)
          rw [htp] at this
          exact this
        exact ihm c (swapSlots h c j) (fixPtr (swapSlots h c j) p c j)
          (by omega) (by omega) hA' hB' hptr1
      · rw [dif_neg hlt]
        refine ⟨?_, hptr⟩
        intro t ht
        have htm := Finset.mem_Icc.mp ht
        by_cases htpj : t / 2 = j
        · have := hc_min t (by omega) htm.2
          have hle := le_of_not_lt hlt
          exact le_trans (htpj ▸ hle) this
        · exact hA t ht htpj
    · rw [dif_neg hci]
      refine ⟨?_, hptr⟩
      intro t ht
      have htm := Finset.mem_Icc.mp ht
      exact hA t ht (by omega)

theorem heapOrd_root_min (d : ℕ → ℚ) (h : ℕ → ℕ) (s : ℕ) (hord : heapOrd d h s) :
    ∀ t ∈ Finset.Icc 1 s, d (h 1) ≤ d (h t) := by
  intro t
  induction t using Nat.strong_induction_on with
  | _ t ih =>
  intro ht
  have htm := Finset.mem_Icc.mp ht
  rcases Nat.lt_or_ge t 2 with h2 | h2
  · have ht1 : t = 1 := by omega
    rw [ht1]
  · have hstep := hord t (Finset.mem_Icc.mpr ⟨h2, htm.2⟩)
    have hup := ih (t / 2) (by omega) (Finset.mem_Icc.mpr ⟨by omega, by omega⟩)
    exact le_trans hup hstep

theorem PushHeap_correct (d : ℕ → ℚ) (h p : ℕ → ℕ) (s v : ℕ)
    (hinv : HeapInv d h p s) (hnew : ∀ t ∈ Finset.Icc 1 s, h t ≠ v) :
    HeapInv d (PushHeap d h p s v).1.1 (PushHeap d h p s v).1.2 (s + 1) := by
  obtain ⟨hord, hptr⟩ := hinv
  simp only [PushHeap]
  apply SiftUp_correct d (s + 1) (s + 1) _ _ (by omega) (le_refl _)
  · intro t ht htne
    have htm := Finset.mem_Icc.mp ht
    have ht1 : t ≠ s + 1 := htne
    have ht2 : t / 2 ≠ s + 1 := by omega
    simp only [if_neg ht1, if_neg ht2]
    exact hord t (Finset.mem_Icc.mpr ⟨htm.1, by omega⟩)
  · intro _ t ht htp
    have htm := Finset.mem_Icc.mp ht
    omega
  · intro t ht
    have htm := Finset.mem_Icc.mp ht
    by_cases hts : t = s + 1
    · subst hts
      simp
    · have htle : t ≤ s := by omega
      have hne := hnew t (Finset.mem_Icc.mpr ⟨htm.1, htle⟩)
      simp only [if_neg hts, if_neg hne]
      exact hptr t (Finset.mem_Icc.mpr ⟨htm.1, htle⟩)

theorem decreaseKey_correct (d : ℕ → ℚ) (h p : ℕ → ℕ) (s v : ℕ) (c : ℚ)
    (hinv : HeapInv d h p s) (hin : ∃ t ∈ Finset.Icc 1 s, h t = v) (hc : c ≤ d v) :
    HeapInv (fun w => if w = v then c else d w)
      (SiftUp (fun w => if w = v then c else d w) h p (p v)).1
      (SiftUp (fun w => if w = v then c else d w) h p (p v)).2 s := by
  obtain ⟨hord, hptr⟩ := hinv
  obtain ⟨j, hjm, hjv⟩ := hin
  have hjIcc := Finset.mem_Icc.mp hjm
  have hpv : p v = j := by rw [← hjv]; exact hptr j hjm
  have hinj := heapPtr_inj h p s hptr
  rw [hpv]
  apply SiftUp_correct (fun w => if w = v then c else d w) s j h p hjIcc.1 hjIcc.2 ?_ ?_ hptr
  · intro t ht htj
    have htm := Finset.mem_Icc.mp ht
    have hne1 : h t ≠ v := by
      intro hcv
      exact htj (hinj t j (by omega) htm.2 hjIcc.1 hjIcc.2 (hcv.trans hjv.symm))
    by_cases hne2 : h (t / 2) = v
    · have htpj : t / 2 = j :=
        hinj (t / 2) j (by omega) (by omega) hjIcc.1 hjIcc.2 (hne2.trans hjv.symm)
      simp only [if_pos hne2, if_neg hne1]
      have hstep := hord t ht
      rw [htpj, hjv] at hstep
      calc c ≤ d v := hc
        _ ≤ d (h t) := by rw [← hjv, ← htpj]; exact hord t ht
    · simp only [if_neg hne1, if_neg hne2]
      exact hord t ht
  · intro hj2 t ht htp
    have htm := Finset.mem_Icc.mp ht
    have hne1 : h (j / 2) ≠ v := by
      intro hcv
      have : j / 2 = j := hinj (j / 2) j (by omega) (by omega) hjIcc.1 hjIcc.2 (hcv.trans hjv.symm)
      omega
    have hne2 : h t ≠ v := by
      intro hcv
      have : t = j := hinj t j (by omega) htm.2 hjIcc.1 hjIcc.2 (hcv.trans hjv.symm)
      omega
    simp only [if_neg hne1, if_neg hne2]
    have h1 := hord j (Finset.mem_Icc.mpr ⟨hj2, hjIcc.2⟩)
    have h2 := hord t ht
    rw [htp] at h2
    exact le_trans h1 h2

theorem PopHeap_correct (d : ℕ → ℚ) (h p : ℕ → ℕ) (s : ℕ)
    (hs : 1 ≤ s) (hinv : HeapInv d h p s) :
    (PopHeap d h p s).1 = h 1 ∧
    (∀ t ∈ Finset.Icc 1 s, d (h 1) ≤ d (h t)) ∧
    HeapInv d (PopHeap d h p s).2.1.1 (PopHeap d h p s).2.1.2 (s - 1) := by
  obtain ⟨hord, hptr⟩ := hinv
  have hinj := heapPtr_inj h p s hptr
  refine ⟨rfl, heapOrd_root_min d h s hord, ?_⟩
  simp only [PopHeap]
  apply SiftDown_correct d (s - 1) s 1 _ _ (by omega) (le_refl 1)
  · intro t ht htne
    have htm := Finset.mem_Icc.mp ht
    have ht1 : t ≠ 1 := by omega
    have ht2 : t / 2 ≠ 1 := htne
    simp only [if_neg ht1, if_neg ht2]
    exact hord t (Finset.mem_Icc.mpr ⟨htm.1, by omega⟩)
  · intro h21
    omega
  · intro t ht
    have htm := Finset.mem_Icc.mp ht
    by_cases ht1 : t = 1
    · subst ht1
      simp
    · have hts : t ≤ s - 1 := htm.2
      have hneq : h t ≠ h s := by
        intro hcv
        have : t = s := hinj t s (by omega) (by omega) (by omega) (le_refl s) hcv
        omega
      simp only [if_neg ht1, eq_self_iff_true, if_true]
      rw [if_neg hneq]
      exact hptr t (Finset.mem_Icc.mpr ⟨htm.1, by omega⟩)

/-- Keys for the non-monotone pop sequence: vertex `0` has key `5`,
vertex `1` has key `10`. -/
def ceD0 : ℕ → ℚ := fun v => if v = 0 then 5 else if v = 1 then 10 else 0

/-- Keys after the decrease-key: vertex `1`'s key is lowered to `3`. -/
def ceD1 : ℕ → ℚ := fun v => if v = 1 then 3 else ceD0 v

/-- Initial (empty-heap) slot array. -/
def ceH0 : ℕ → ℕ := fun _ => 0

/-- Initial back-pointer array. -/
def ceP0 : ℕ → ℕ := fun _ => 0

/-- Push vertex `0` (key `5`) onto the empty heap. -/
def ceStep1 : ((ℕ → ℕ) × (ℕ → ℕ)) × ℕ := PushHeap ceD0 ceH0 ceP0 0 0

/-- Pop: returns vertex `0`, key `5`. -/
def ceStep2 : ℕ × ((ℕ → ℕ) × (ℕ → ℕ)) × ℕ :=
  PopHeap ceD0 ceStep1.1.1 ceStep1.1.2 ceStep1.2

/-- Push vertex `1` (key `10`). -/
def ceStep3 : ((ℕ → ℕ) × (ℕ → ℕ)) × ℕ :=
  PushHeap ceD0 ceStep2.2.1.1 ceStep2.2.1.2 ceStep2.2.2 1

/-- Decrease vertex `1`'s key to `3` and sift it up from its slot. -/
def ceStep4 : (ℕ → ℕ) × (ℕ → ℕ) := SiftUp ceD1 ceStep3.1.1 ceStep3.1.2 (ceStep3.1.2 1)

/-- Final pop: returns vertex `1`, key `3`. -/
def ceStep5 : ℕ × ((ℕ → ℕ) × (ℕ → ℕ)) × ℕ :=
  PopHeap ceD1 ceStep4.1 ceStep4.2 ceStep3.2

/-- C5 counterexample: the interleaved sequence push(0,key 5); pop;
push(1,key 10); decreaseKey(1 ↦ 3); pop — built from `PushHeap`,
`PopHeap` and decrease-key-as-`SiftUp` starting from the empty heap —
pops vertex `0` at key `5` and then vertex `1` at key `3 < 5`: successive
pops are not non-decreasing once a decrease-key goes below an
already-popped key. -/
theorem heap_pops_not_monotone :
    ceStep2.1 = 0 ∧ ceStep5.1 = 1 ∧ ceD1 ceStep5.1 < ceD0 ceStep2.1 := by
  refine ⟨?_, ?_, ?_⟩ <;> with_unfolding_all decide

/-- C5 as amended: each heap operation — `PushHeap` of a vertex not in
the heap, decrease-key (lowering `d[v]` then `SiftUp` from `p[v]`), and
`PopHeap` — preserves the two claimed invariants `d[h[t]] ≥ d[h[t/2]]`
for occupied slots `t > 1` and `p[h[t]] = t` for occupied slots; and the
vertex popped by `PopHeap` carries a minimal key among the occupied
slots.  The claim's further assertion that arbitrary interleавed
sequences pop in non-decreasing key order fails (see the counterexample);
it would require every inserted or decreased key to be at least the last
popped key, as in Dijkstra's usage. -/
theorem heap_ops_preserve_invariant (d : ℕ → ℚ) (h p : ℕ → ℕ) (s : ℕ)
    (hinv : HeapInv d h p s) :
    (∀ v, (∀ t ∈ Finset.Icc 1 s, h t ≠ v) →
      HeapInv d (PushHeap d h p s v).1.1 (PushHeap d h p s v).1.2 (s + 1)) ∧
    (∀ v c, (∃ t ∈ Finset.Icc 1 s, h t = v) → c ≤ d v →
      HeapInv (fun w => if w = v then c else d w)
        (SiftUp (fun w => if w = v then c else d w) h p (p v)).1
        (SiftUp (fun w => if w = v then c else d w) h p (p v)).2 s) ∧
    (1 ≤ s →
      (PopHeap d h p s).1 = h 1 ∧
      (∀ t ∈ Finset.Icc 1 s, d ((PopHeap d h p s).1) ≤ d (h t)) ∧
      HeapInv d (PopHeap d h p s).2.1.1 (PopHeap d h p s).2.1.2 (s - 1)) := by
  refine ⟨fun v hnew => PushHeap_correct d h p s v hinv hnew,
    fun v c hin hc => decreaseKey_correct d h p s v c hinv hin hc,
    fun hs => ?_⟩
  obtain ⟨h1, h2, h3⟩ := PopHeap_correct d h p s hs hinv
  exact ⟨h1, by rw [h1]; exact h2, h3⟩

/-- Small concrete heap for the C5 witness: vertices `0, 1` at slots
`1, 2` with keys `1, 3`. -/
def heapExD : ℕ → ℚ := fun v => if v = 0 then 1 else if v = 1 then 3 else 5

/-- Concrete slot array for the C5 witness. -/
def heapExH : ℕ → ℕ := fun t => if t = 1 then 0 else if t = 2 then 1 else 0

/-- Concrete back-pointer array for the C5 witness. -/
def heapExP : ℕ → ℕ := fun v => if v = 0 then 1 else if v = 1 then 2 else 0

/-- Witness for C5's amended theorem on the concrete two-element heap:
all three operations apply. -/
theorem heap_ops_preserve_invariant_witness :
    HeapInv heapExD heapExH heapExP 2 ∧
      ((∀ v, (∀ t ∈ Finset.Icc 1 2, heapExH t ≠ v) →
        HeapInv heapExD (PushHeap heapExD heapExH heapExP 2 v).1.1
          (PushHeap heapExD heapExH heapExP 2 v).1.2 3) ∧
      (∀ v c, (∃ t ∈ Finset.Icc 1 2, heapExH t = v) → c ≤ heapExD v →
        HeapInv (fun w => if w = v then c else heapExD w)
          (SiftUp (fun w => if w = v then c else heapExD w) heapExH heapExP (heapExP v)).1
          (SiftUp (fun w => if w = v then c else heapExD w) heapExH heapExP (heapExP v)).2 2) ∧
      (1 ≤ 2 →
        (PopHeap heapExD heapExH heapExP 2).1 = heapExH 1 ∧
        (∀ t ∈ Finset.Icc 1 2,
          heapExD ((PopHeap heapExD heapExH heapExP 2).1) ≤ heapExD (heapExH t)) ∧
        HeapInv heapExD (PopHeap heapExD heapExH heapExP 2).2.1.1
          (PopHeap heapExD heapExH heapExP 2).2.1.2 1)) := by
  have hinv : HeapInv heapExD heapExH heapExP 2 := by
    unfold HeapInv heapOrd heapPtr heapExD heapExH heapExP
    refine ⟨?_, ?_⟩ <;> decide
  exact ⟨hinv, heap_ops_preserve_invariant heapExD heapExH heapExP 2 hinv⟩

/-! ### Graph matrices (`degrees`, `diag_multiply`, `degree_matrix`,
`graph_laplacian`, graphlearning.py lines 183-232)

Sparse matrices are embedded as dense functions `ℕ → ℕ → ℚ` over the
vertex range `0..n-1`. -/

/-- Embedding of `degrees(W)`: the vector of row sums. -/
def degrees (n : ℕ) (W : ℕ → ℕ → ℚ) (i : ℕ) : ℚ :=
  ∑ j in Finset.range n, W i j

/-- Embedding of `diag_multiply(W, b) = W - (1-b)*diag(W)`. -/
def diag_multiply (W : ℕ → ℕ → ℚ) (b : ℚ) : ℕ → ℕ → ℚ :=
  fun i j => if i = j then W i j - (1 - b) * W i j else W i j

/-- Embedding of `degree_matrix(W, p)`: the diagonal matrix with entries
`d(i)^p` (an integer power; `poisson` uses `p = -1`). -/
def degree_matrix (n : ℕ) (W : ℕ → ℕ → ℚ) (p : ℤ) : ℕ → ℕ → ℚ :=
  fun i j => if i = j then degrees n W i ^ p else 0

/-- Embedding of `graph_laplacian(W, norm="none") = D - W`, the branch the
Poisson solver uses. -/
def graph_laplacian (n : ℕ) (W : ℕ → ℕ → ℚ) : ℕ → ℕ → ℚ :=
  fun i j => degree_matrix n W 1 i j - W i j

/-- Matrix product over the vertex range. -/
def matMat (n : ℕ) (M N : ℕ → ℕ → ℚ) : ℕ → ℕ → ℚ :=
  fun i j => ∑ t in Finset.range n, M i t * N t j

/-- Matrix-vector product over the vertex range. -/
def matVec (n : ℕ) (M : ℕ → ℕ → ℚ) (v : ℕ → ℚ) : ℕ → ℚ :=
  fun i => ∑ t in Finset.range n, M i t * v t

/-! ### Poisson learning (`poisson`, graphlearning.py lines 1416-1498)

The GPU (`use_cuda`) branch executes the identical recurrences
`u ← Db + P·u`, `v ← RW·v` with the identical stopping guard, so one
embedding covers both execution paths.  The `while` loop gets an explicit
fuel parameter; `none` means the fuel ran out before the mixing guard
was met. -/

/-- Sequential fancy assignment `f[I] = g` on a vertex-indexed function
(later writes win, as in numpy). -/
def assignFun (f : ℕ → ℚ) (I : List ℕ) (g : List ℚ) : ℕ → ℚ :=
  (I.zip g).foldl (fun f p => fun x => if x = p.1 then p.2 else f x) f

/-- Number of labeled examples of class `c`:
`num_labels[c] = np.sum(g == unique_labels[c])`. -/
def num_labels (g : List ℚ) (c : ℕ) : ℚ :=
  ((g.filter (fun x => decide (x = (sortedDedup g).getD c 0))).length : ℚ)

/-- The label-mass matrix `Kg` of `poisson`: the one-hot encoding of the
padded label vector `K` (built by `K = ones(n)*g[0]; K[I] = g`), masked by
`J` to the labeled vertices and with row `c` scaled by
`multiplier[c] = 1/num_labels[c]`. -/
def poissonKg (n : ℕ) (I : List ℕ) (g : List ℚ) : ℕ → ℕ → ℚ :=
  fun c i =>
    (1 / num_labels g c) *
      ((LabelsToVec ((List.range n).map
          (assignFun (fun _ => g.getD 0 0) I g))).1 c i *
        (if i ∈ I then 1 else 0))

/-- Per-class mean `c = np.sum(Kg, axis=1)/k`. -/
def poissonCvec (n : ℕ) (I : List ℕ) (g : List ℚ) (c : ℕ) : ℚ :=
  (∑ i in Finset.range n, poissonKg n I g c i) / ((sortedDedup g).length : ℚ)

/-- The source matrix `b = Kg^T` before the centering loop. -/
def poissonB0 (n : ℕ) (I : List ℕ) (g : List ℚ) : ℕ → ℕ → ℚ :=
  fun i c => poissonKg n I g c i

/-- The centering loop
`for j, i in enumerate(I): b[i,:] -= c/num_labels[g[j]]` (the class count
is indexed by the label value itself). -/
def poissonB (n : ℕ) (I : List ℕ) (g : List ℚ) : ℕ → ℕ → ℚ :=
  (I.zip g).foldl
    (fun b p => fun i c =>
      if i = p.1 then b i c - poissonCvec n I g c / num_labels g (⌊p.2⌋.toNat) else b i c)
    (poissonB0 n I g)

/-- The weight matrix after `W = diag_multiply(W, 0)`. -/
def poissonW (W : ℕ → ℕ → ℚ) : ℕ → ℕ → ℚ := diag_multiply W 0

/-- `D = degree_matrix(W + 1e-10*I, p=-1)`. -/
def poissonD (n : ℕ) (W : ℕ → ℕ → ℚ) : ℕ → ℕ → ℚ :=
  degree_matrix n (fun i j => poissonW W i j + if i = j then 1 / 10 ^ 10 else 0) (-1)

/-- The propagation operator `P = I - D·L` driving `u`. -/
def poissonP (n : ℕ) (W : ℕ → ℕ → ℚ) : ℕ → ℕ → ℚ :=
  fun i j => (if i = j then 1 else 0) -
    matMat n (poissonD n W) (graph_laplacian n (poissonW W)) i j

/-- The random-walk operator `RW = W·D` driving the mixing proxy `v`. -/
def poissonRW (n : ℕ) (W : ℕ → ℕ → ℚ) : ℕ → ℕ → ℚ :=
  matMat n (poissonW W) (poissonD n W)

/-- The stationary distribution `vinf = degrees(W)/sum(degrees(W))`. -/
def poissonVinf (n : ℕ) (W : ℕ → ℕ → ℚ) (i : ℕ) : ℚ :=
  degrees n (poissonW W) i / ∑ j in Finset.range n, degrees n (poissonW W) j

/-- The initial mixing proxy `v = np.max(Kg, axis=0); v = v/np.sum(v)`. -/
def poissonV0 (n : ℕ) (I : List ℕ) (g : List ℚ) (i : ℕ) : ℚ :=
  listMax ((List.range (sortedDedup g).length).map (fun c => poissonKg n I g c i)) /
    ∑ t in Finset.range n,
      listMax ((List.range (sortedDedup g).length).map (fun c => poissonKg n I g c t))

/-- The loop guard quantity `np.max(np.absolute(v - vinf))`. -/
def poissonGap (n : ℕ) (W : ℕ → ℕ → ℚ) (v : ℕ → ℚ) : ℚ :=
  listMax ((List.range n).map (fun i => |v i - poissonVinf n W i|))

/-- The diffusion loop of `poisson`: while `max|v - vinf| > 1/n`, update
`u ← Db + P·u` and `v ← RW·v`, counting iterations in `T`. -/
def poissonLoop (n : ℕ) (W : ℕ → ℕ → ℚ) (I : List ℕ) (g : List ℚ) :
    ℕ → (ℕ → ℕ → ℚ) → (ℕ → ℚ) → ℕ → Option ((ℕ → ℕ → ℚ) × ℕ)
  | 0, _, _, _ => none
  | fuel + 1, u, v, T =>
    if poissonGap n W v > 1 / n then
      poissonLoop n W I g fuel
        (fun i c => matMat n (poissonD n W) (poissonB n I g) i c +
          matMat n (poissonP n W) u i c)
        (matVec n (poissonRW n W) v) (T + 1)
    else some (u, T)

/-- Embedding of `poisson(W, I, g)` up to the final transpose: the matrix
`u` and the iteration count `T` at the moment the mixing guard stops the
loop (`none` if the fuel is insufficient). -/
def poisson (n : ℕ) (W : ℕ → ℕ → ℚ) (I : List ℕ) (g : List ℚ) (fuel : ℕ) :
    Option ((ℕ → ℕ → ℚ) × ℕ) :=
  poissonLoop n W I g fuel (fun _ _ => 0) (poissonV0 n I g) 0

/-- The `t`-step propagated mixing proxy `RW^t · v0`. -/
def poissonVIter (n : ℕ) (W : ℕ → ℕ → ℚ) (I : List ℕ) (g : List ℚ) (t : ℕ) : ℕ → ℚ :=
  (matVec n (poissonRW n W))^[t] (poissonV0 n I g)

theorem poissonLoop_spec (n : ℕ) (W : ℕ → ℕ → ℚ) (I : List ℕ) (g : List ℚ) :
    ∀ fuel t u r,
      poissonLoop n W I g fuel u (poissonVIter n W I g t) t = some r →
      t ≤ r.2 ∧ ¬ poissonGap n W (poissonVIter n W I g r.2) > 1 / n ∧
        ∀ t', t ≤ t' → t' < r.2 → poissonGap n W (poissonVIter n W I g t') > 1 / n := by
  intro fuel
  induction fuel with
  | zero => intro t u r hr; simp [poissonLoop] at hr
  | succ fuel ih =>
    intro t u r hr
    rw [poissonLoop] at hr
    by_cases hg : poissonGap n W (poissonVIter n W I g t) > 1 / n
    · rw [if_pos hg] at hr
      have hstep : matVec n (poissonRW n W) (poissonVIter n W I g t)
          = poissonVIter n W I g (t + 1) := by
        unfold poissonVIter
        rw [Function.iterate_succ_apply']
      rw [hstep] at hr
      obtain ⟨h1, h2, h3⟩ := ih (t + 1) _ r hr
      refine ⟨by omega, h2, ?_⟩
      intro t' ht1 ht2
      rcases Nat.eq_or_lt_of_le ht1 with he | hlt
      · rw [← he]; exact hg
      · exact h3 t' hlt ht2
    · rw [if_neg hg] at hr
      have : r = (u, t) := by
        injection hr with h
        exact h.symm
      rw [this]
      exact ⟨le_refl t, hg, fun t' h1 h2 => absurd (lt_of_le_of_lt h1 h2) (lt_irrefl t)⟩

/-- C3 as amended: the diffusion loop (CPU and GPU branches run the same
recurrence and guard) stops after exactly `T` steps, where `T` is the
least `t` such that `max|v_t − π| ≤ 1/n` — with `π = degrees(W)/Σdegrees`
the stationary distribution, and `v_t = RW^t·v0` where `RW = W·D⁻¹` is
the adjoint random-walk operator and `v0` is the normalized label-mass
vector (`max` over classes of `Kg`, normalized), not a uniform vector. -/
theorem poisson_stops_at_mixing (n : ℕ) (W : ℕ → ℕ → ℚ) (I : List ℕ) (g : List ℚ)
    (fuel : ℕ) (r : (ℕ → ℕ → ℚ) × ℕ)
    (hr : poisson n W I g fuel = some r) :
    poissonGap n W (poissonVIter n W I g r.2) ≤ 1 / n ∧
      ∀ t < r.2, poissonGap n W (poissonVIter n W I g t) > 1 / n := by
  have h0 : poissonVIter n W I g 0 = poissonV0 n I g := rfl
  have := poissonLoop_spec n W I g fuel 0 (fun _ _ => 0) r (by rw [h0]; exact hr)
  exact ⟨le_of_not_lt this.2.1, fun t ht => this.2.2 t (Nat.zero_le t) ht⟩

/-- Concrete 4-vertex graph (triangle `0-1-2` plus pendant edge `2-3`,
unit weights) for the Poisson-mixing claims. -/
def WC3ex : ℕ → ℕ → ℚ := fun i j =>
  if (i = 0 ∧ j = 1) ∨ (i = 1 ∧ j = 0) ∨ (i = 0 ∧ j = 2) ∨ (i = 2 ∧ j = 0) ∨
     (i = 1 ∧ j = 2) ∨ (i = 2 ∧ j = 1) ∨ (i = 2 ∧ j = 3) ∨ (i = 3 ∧ j = 2) then 1 else 0

/-- C3 counterexample: on the triangle-plus-pendant graph with seeds `0`
and `3` (classes `0` and `1`), a probability vector at the claimed
*uniform start* `v = (1/4,1/4,1/4,1/4)` already satisfies
`max|v − π| ≤ 1/n` before any iteration — so the claimed rule stops after
`0` iterations — yet the code's loop runs `T = 3` iterations, because its
`v` actually starts from the normalized label-mass vector
`(1/2, 0, 0, 1/2)`, not from a uniform vector. -/
theorem poisson_mixing_not_uniform_start :
    poissonGap 4 WC3ex (fun _ => 1 / 4) ≤ 1 / 4 ∧
      poissonGap 4 WC3ex (poissonV0 4 [0, 3] [0, 1]) > 1 / 4 ∧
      (poisson 4 WC3ex [0, 3] [0, 1] 30).map (fun r => r.2) = some 3 := by
  refine ⟨?_, ?_, ?_⟩ <;> with_unfolding_all decide

/-- The concrete stopped pair `(u, T)` of the Poisson run on the
triangle-plus-pendant example. -/
def poissonExampleRes : (ℕ → ℕ → ℚ) × ℕ :=
  (poisson 4 WC3ex [0, 3] [0, 1] 30).getD (fun _ _ => 0, 0)

/-- Witness for C3's amended theorem on the triangle-plus-pendant
example. -/
theorem poisson_stops_at_mixing_witness :
    poisson 4 WC3ex [0, 3] [0, 1] 30 = some poissonExampleRes ∧
      (poissonGap 4 WC3ex (poissonVIter 4 WC3ex [0, 3] [0, 1] poissonExampleRes.2) ≤ 1 / 4 ∧
        ∀ t < poissonExampleRes.2,
          poissonGap 4 WC3ex (poissonVIter 4 WC3ex [0, 3] [0, 1] t) > 1 / 4) := by
  have h : poisson 4 WC3ex [0, 3] [0, 1] 30 = some poissonExampleRes := by
    with_unfolding_all rfl
  exact ⟨h, poisson_stops_at_mixing 4 WC3ex [0, 3] [0, 1] 30 poissonExampleRes h⟩

/-! ### Nearest-neighbor classifier, portable path (`nearestneighbor`,
graphlearning.py lines 1689-1762)

The code reformats `W` via `WI, WJ, WV = sparse.find(W)` (column-major
triples of the stored entries) and builds the slice-offset array `K` from
the breakpoints of `WJ`.  The Python Dijkstra then relaxes the neighbors
`WI[K[i]:K[i+1]]` of each finalized vertex `i`, but reads the edge weight
as `WV[j]` — indexing the value array by the *neighbor's vertex id* `j`
rather than by the edge's position in the triple list. -/

/-- Column-major `(row, col)` pairs of the stored entries of `W`, in
`sparse.find` order. -/
def findPairs (n : ℕ) (W : ℕ → ℕ → ℚ) : List (ℕ × ℕ) :=
  (List.range n).bind (fun c =>
    ((List.range n).filter (fun r => decide (W r c ≠ 0))).map (fun r => (r, c)))

/-- The row-index array `WI`. -/
def findWI (n : ℕ) (W : ℕ → ℕ → ℚ) : List ℕ := (findPairs n W).map (fun q => q.1)

/-- The column-index array `WJ`. -/
def findWJ (n : ℕ) (W : ℕ → ℕ → ℚ) : List ℕ := (findPairs n W).map (fun q => q.2)

/-- The value array `WV`. -/
def findWV (n : ℕ) (W : ℕ → ℕ → ℚ) : List ℚ := (findPairs n W).map (fun q => W q.1 q.2)

/-- The offset array
`K = append(0, append((WJ[1:] - WJ[:-1]).nonzero() + 1, len(WJ)))`. -/
def breakK (WJ : List ℕ) : List ℕ :=
  0 :: ((((List.range (WJ.length - 1)).filter
      (fun t => decide (WJ.getD (t + 1) 0 ≠ WJ.getD t 0))).map (fun t => t + 1))
    ++ [WJ.length])

/-- The mutable arrays of the Python Dijkstra: distances `d`, nearest-seed
labels `l` (`-1` = no label yet), heap slots `h`, back-pointers `p`,
active flags `A`, finalized flags `V`, and the heap size `s`. -/
structure NNState where
  d : ℕ → ℚ
  l : ℕ → ℤ
  h : ℕ → ℕ
  p : ℕ → ℕ
  A : ℕ → Bool
  V : ℕ → Bool
  s : ℕ

/-- Seed initialization: each labeled vertex is pushed (with its current
sentinel distance `1e10`), then its distance is zeroed, its active flag
set, and its own id recorded as its closest label. -/
def nnInit (I : List ℕ) : NNState :=
  I.foldl (fun st i =>
    let ps := PushHeap st.d st.h st.p st.s i
    { d := fun x => if x = i then 0 else st.d x,
      l := fun x => if x = i then (i : ℤ) else st.l x,
      h := ps.1.1, p := ps.1.2,
      A := fun x => if x = i then true else st.A x,
      V := st.V, s := ps.2 })
    { d := fun _ => 10000000000, l := fun _ => -1, h := fun _ => 0, p := fun _ => 0,
      A := fun _ => false, V := fun _ => false, s := 0 }

/-- One neighbor relaxation from the finalized vertex `i` to `j`: the
candidate distance is `d[i] + WV[j]` (the code's vertex-id indexing of
the value array), either decrease-keying an active neighbor or pushing an
inactive one. -/
def nnRelax (WV : List ℚ) (i : ℕ) (st : NNState) (j : ℕ) : NNState :=
  if j ≠ i ∧ st.V j = false then
    if st.A j then
      if st.d i + WV.getD j 0 < st.d j then
        let d1 := fun x => if x = j then st.d i + WV.getD j 0 else st.d x
        let hp := SiftUp d1 st.h st.p (st.p j)
        { st with
          d := d1,
          h := hp.1,
          p := hp.2,
          l := fun x => if x = j then st.l i else st.l x }
      else st
    else
      let ps := PushHeap st.d st.h st.p st.s j
      { d := fun x => if x = j then st.d i + WV.getD j 0 else st.d x,
        l := fun x => if x = j then st.l i else st.l x,
        h := ps.1.1, p := ps.1.2,
        A := fun x => if x = j then true else st.A x,
        V := st.V, s := ps.2 }
  else st

/-- The main Dijkstra loop (`while s > 0`), with explicit fuel: pop the
minimum, mark it finalized, and relax its stored neighbors
`WI[K[i]:K[i+1]]`. -/
def nnLoop (WI : List ℕ) (WV : List ℚ) (K : List ℕ) : ℕ → NNState → NNState
  | 0, st => st
  | fuel + 1, st =>
    if st.s = 0 then st
    else
      let pop := PopHeap st.d st.h st.p st.s
      let st1 : NNState :=
        { st with
          h := pop.2.1.1,
          p := pop.2.1.2,
          s := pop.2.2,
          V := fun x => if x = pop.1 then true else st.V x,
          A := fun x => if x = pop.1 then false else st.A x }
      let nbrs := (WI.drop (K.getD pop.1 0)).take (K.getD (pop.1 + 1) 0 - K.getD pop.1 0)
      nnLoop WI WV K fuel (nbrs.foldl (nnRelax WV pop.1) st1)

/-- The full Dijkstra traversal of the Python path of `nearestneighbor`. -/
def nnRun (n : ℕ) (W : ℕ → ℕ → ℚ) (I : List ℕ) (fuel : ℕ) : NNState :=
  nnLoop (findWI n W) (findWV n W) (breakK (findWJ n W)) fuel (nnInit I)

/-- Embedding of the Python path of `nearestneighbor(W, I, g)`: run the
traversal, pin `u = zeros(n); u[I] = g`, and one-hot encode `u[l]`
(`npGet` reproduces numpy's negative-index wraparound for the `-1`
sentinel entries of `l`). -/
def nearestneighborPy (n : ℕ) (W : ℕ → ℕ → ℚ) (I : List ℕ) (g : List ℚ) (fuel : ℕ) :
    (ℕ → ℕ → ℚ) × List ℚ :=
  LabelsToVec ((List.range n).map (fun i =>
    npGet (assignAt (List.replicate n 0) I g) ((nnRun n W I fuel).l i)))

/-- Graph path-weight distance from `src`, as `n`-fold Bellman-Ford
relaxation over the stored edges (the mathematical shortest-path
distance the claim refers to; `1e10` plays the unreachable sentinel). -/
def bfRelax (n : ℕ) (W : ℕ → ℕ → ℚ) (dist : ℕ → ℚ) : ℕ → ℚ :=
  fun v => (List.range n).foldl
    (fun acc u => if W u v ≠ 0 then min acc (dist u + W u v) else acc) (dist v)

/-- Iterated Bellman-Ford distance. -/
def graphDist (n : ℕ) (W : ℕ → ℕ → ℚ) (src : ℕ) : ℕ → ℚ :=
  (bfRelax n W)^[n] (fun v => if v = src then 0 else 10000000000)

/-- Weighted path `0 -1- 1 -1- 2 -10- 3` for the C2 failing input. -/
def WC2 : ℕ → ℕ → ℚ := fun i j =>
  if (i = 0 ∧ j = 1) ∨ (i = 1 ∧ j = 0) ∨ (i = 1 ∧ j = 2) ∨ (i = 2 ∧ j = 1) then 1
  else if (i = 2 ∧ j = 3) ∨ (i = 3 ∧ j = 2) then 10 else 0

/-- C2, the code evaluated at the failing input: on the weighted path
`0 -1- 1 -1- 2 -10- 3` with seeds `0` (label `5`) and `3` (label `7`),
the Python Dijkstra assigns vertex `2` to seed `3` (`l[2] = 3`, output
class `1`, the class of label `7`), although by graph path-weight vertex
`2` is at distance `2` from seed `0` and `10` from seed `3`.  The
candidate distance the code offers is `d[i] + WV[j]` — the weight of the
`j`-th stored edge in column-major order (here `1`) — not the weight
`w(i,j) = 10` of the edge between `i` and `j` that the claim (and the
function's own geodesic-distance purpose) prescribe. -/
theorem nearestneighbor_weight_indexing_bug :
    (nnRun 4 WC2 [0, 3] 10).l 2 = 3 ∧
    graphDist 4 WC2 0 2 = 2 ∧ graphDist 4 WC2 3 2 = 10 ∧
    (nearestneighborPy 4 WC2 [0, 3] [5, 7] 10).2 = [5, 7] ∧
    (nearestneighborPy 4 WC2 [0, 3] [5, 7] 10).1 1 2 = 1 ∧
    (nearestneighborPy 4 WC2 [0, 3] [5, 7] 10).1 0 2 = 0 := by
  refine ⟨?_, ?_, ?_, ?_, ?_, ?_⟩ <;> with_unfolding_all decide

/-- Disconnected 5-vertex graph for C8: component `{0, 1, 4}` with seeds
`0` and `4`, and an unreachable unlabeled component `{2, 3}`. -/
def WC8 : ℕ → ℕ → ℚ := fun i j =>
  if (i = 0 ∧ j = 1) ∨ (i = 1 ∧ j = 0) ∨ (i = 1 ∧ j = 4) ∨ (i = 4 ∧ j = 1) ∨
     (i = 2 ∧ j = 3) ∨ (i = 3 ∧ j = 2) then 1 else 0

/-- C8 counterexample: on the disconnected graph the unreachable vertex
`2` ends the traversal with the internal sentinel `l[2] = -1`, but the
returned assignment does not keep any sentinel: `u[l]` reads `u[-1]`,
numpy's wraparound for the last vertex, so vertex `2` is silently
assigned class `1` — the class of the real label value `7` pinned at the
labeled last vertex `4`. -/
theorem nearestneighbor_unreachable_not_sentinel :
    (nnRun 5 WC8 [0, 4] 10).l 2 = -1 ∧
    (nearestneighborPy 5 WC8 [0, 4] [5, 7] 10).2 = [5, 7] ∧
    (nearestneighborPy 5 WC8 [0, 4] [5, 7] 10).1 1 2 = 1 ∧
    (nearestneighborPy 5 WC8 [0, 4] [5, 7] 10).1 1 4 = 1 := by
  refine ⟨?_, ?_, ?_, ?_⟩ <;> with_unfolding_all decide

/-- C8 as amended: unreachable vertices keep the internal sentinel
`l[i] = -1` only inside the traversal; the returned assignment encodes,
at every vertex with `l[i] = -1`, the value `u[n-1]` of the *last* vertex
of the pinned array `u = zeros(n); u[I] = g` — numpy's negative-index
wraparound — rather than a sentinel state (and the call returns
normally). -/
theorem nearestneighbor_unreachable_reads_last (n : ℕ) (W : ℕ → ℕ → ℚ)
    (I : List ℕ) (g : List ℚ) (fuel : ℕ) (i : ℕ) (hi : i < n)
    (hl : (nnRun n W I fuel).l i = -1) :
    ((List.range n).map (fun v =>
        npGet (assignAt (List.replicate n 0) I g) ((nnRun n W I fuel).l v))).getD i 0
      = (assignAt (List.replicate n 0) I g).getD (n - 1) 0 := by
  have hlen : ∀ L : List ℚ, ∀ f : ℕ → ℚ, i < n →
      ((List.range n).map f).getD i 0 = f i := by
    intro L f hin
    have h1 : i < ((List.range n).map f).length := by
      rw [List.length_map, List.length_range]; exact hin
    rw [List.getD_eq_getElem _ 0 h1, List.getElem_map, List.getElem_range]
  rw [hlen [] _ hi, hl]
  unfold npGet
  rw [if_pos (by norm_num)]
  have hulen : (assignAt (List.replicate n 0) I g).length = n := by
    rw [assignAt_length, List.length_replicate]
  rw [hulen]
  norm_num

/-- Witness for C8's amended theorem on the concrete disconnected graph:
unreachable vertex `2` reads the pinned value of the last vertex. -/
theorem nearestneighbor_unreachable_reads_last_witness :
    (nnRun 5 WC8 [0, 4] 10).l 2 = -1 ∧
      ((List.range 5).map (fun v =>
          npGet (assignAt (List.replicate 5 0) [0, 4] [5, 7]) ((nnRun 5 WC8 [0, 4] 10).l v))).getD 2 0
        = (assignAt (List.replicate 5 0) [0, 4] [5, 7]).getD 4 0 := by
  have hl : (nnRun 5 WC8 [0, 4] 10).l 2 = -1 := by with_unfolding_all decide
  exact ⟨hl, nearestneighbor_unreachable_reads_last 5 WC8 [0, 4] [5, 7] 10 2 (by norm_num) hl⟩

/-! ### Optional native accelerators (C9)

`volumeMBO` (lines 1039-1048) and `poissonVolumeMBO` (lines 1002-1006)
wrap `import cmodules.cgraphpy` in `try/except` whose handler prints and
calls `sys.exit()`; `plaplace` with `sol_method="GradientDescentCcode"`
does the same (lines 792-797).  Only `nearestneighbor` (lines 1702-1716)
falls back to the portable Python implementation in its handler.  Whether
the module imports is modelled by a boolean, and the work after a
successful module load by an abstract continuation (it calls into the
native module, which is outside this repository). -/

/-- Outcome of a Python call: a returned value, or process termination
via `sys.exit()`. -/
inductive PyOutcome (α : Type) where
  | ok : α → PyOutcome α
  | sysExit : PyOutcome α
deriving DecidableEq

/-- The accelerator gate of `volumeMBO`: with the module available the
body runs; otherwise the handler prints and exits the process. -/
def volumeMBO_gate {α : Type} (cgpAvailable : Bool) (rest : Unit → α) : PyOutcome α :=
  if cgpAvailable then PyOutcome.ok (rest ()) else PyOutcome.sysExit

/-- The identical gate of `plaplace` on the `"GradientDescentCcode"`
solution path. -/
def plaplace_ccode_gate {α : Type} (cgpAvailable : Bool) (rest : Unit → α) : PyOutcome α :=
  if cgpAvailable then PyOutcome.ok (rest ()) else PyOutcome.sysExit

/-- `nearestneighbor`'s dispatch: the C Dijkstra fills `l` when the
module imports, else the Python traversal does; either way the shared
post-processing returns a labeling. -/
def nearestneighbor_dispatch (cgpAvailable : Bool) (cL : Unit → ℕ → ℤ)
    (n : ℕ) (W : ℕ → ℕ → ℚ) (I : List ℕ) (g : List ℚ) (fuel : ℕ) :
    PyOutcome ((ℕ → ℕ → ℚ) × List ℚ) :=
  PyOutcome.ok (LabelsToVec ((List.range n).map (fun i =>
    npGet (assignAt (List.replicate n 0) I g)
      ((if cgpAvailable then cL () else (nnRun n W I fuel).l) i))))

/-- C9 counterexample: `volumeMBO` with the accelerator module missing
does not fall back — it terminates the whole process via `sys.exit()` —
so "the absence of the accelerator never makes the whole solve fail" is
false at this concrete solve. -/
theorem volumeMBO_no_fallback :
    volumeMBO_gate false (fun _ => (0 : ℕ)) = PyOutcome.sysExit ∧
      volumeMBO_gate false (fun _ => (0 : ℕ)) ≠ PyOutcome.ok 0 := by
  refine ⟨rfl, ?_⟩
  intro h
  simp [volumeMBO_gate] at h

/-- C9 as amended: when the native module is unavailable,
`nearestneighbor` falls back to the portable Python path and always
returns a result, but `volumeMBO` (and `poissonVolumeMBO`, which shares
the same gate) and the `"GradientDescentCcode"` path of `plaplace`
terminate the process via `sys.exit()` instead of falling back. -/
theorem accelerator_unavailable_behavior :
    (∀ (α : Type) (rest : Unit → α), volumeMBO_gate false rest = PyOutcome.sysExit) ∧
    (∀ (α : Type) (rest : Unit → α), plaplace_ccode_gate false rest = PyOutcome.sysExit) ∧
    (∀ (cL : Unit → ℕ → ℤ) (n : ℕ) (W : ℕ → ℕ → ℚ) (I : List ℕ) (g : List ℚ) (fuel : ℕ),
      ∃ r, nearestneighbor_dispatch false cL n W I g fuel = PyOutcome.ok r) := by
  refine ⟨fun α rest => rfl, fun α rest => rfl, fun cL n W I g fuel => ⟨_, rfl⟩⟩

/-- Witness for C9's amended theorem at concrete instantiations. -/
theorem accelerator_unavailable_behavior_witness :
    volumeMBO_gate false (fun _ => (1 : ℕ)) = PyOutcome.sysExit ∧
      plaplace_ccode_gate false (fun _ => (2 : ℕ)) = PyOutcome.sysExit ∧
      ∃ r, nearestneighbor_dispatch false (fun _ => fun _ => 0) 4 WC2 [0, 3] [5, 7] 10
        = PyOutcome.ok r :=
  ⟨accelerator_unavailable_behavior.1 ℕ (fun _ => 1),
    accelerator_unavailable_behavior.2.1 ℕ (fun _ => 2),
    accelerator_unavailable_behavior.2.2 (fun _ => fun _ => 0) 4 WC2 [0, 3] [5, 7] 10⟩

/-! ### Helper lemmas for the Poisson source term (C4) -/

theorem assignFun_not_mem (f : ℕ → ℚ) (I : List ℕ) (g : List ℚ) (i : ℕ)
    (h : i ∉ I) : assignFun f I g i = f i := by
  induction I generalizing f g with
  | nil => simp [assignFun]
  | cons a I ih =>
    cases g with
    | nil => simp [assignFun]
    | cons x g =>
      have hne : i ≠ a := fun hc => h (by simp [hc])
      have hi : i ∉ I := fun hc => h (List.mem_cons_of_mem _ hc)
      calc assignFun f (a :: I) (x :: g) i
          = assignFun (fun y => if y = a then x else f y) I g i := by simp [assignFun]
        _ = (fun y => if y = a then x else f y) i := ih _ g hi
        _ = f i := by simp [hne]

theorem assignFun_at (f : ℕ → ℚ) (I : List ℕ) (g : List ℚ)
    (hnd : I.Nodup) (hlen : g.length = I.length) :
    ∀ j, j < I.length → assignFun f I g (I.getD j 0) = g.getD j 0 := by
  induction I generalizing f g with
  | nil => intro j hj; simp at hj
  | cons a I ih =>
    cases g with
    | nil => intro j hj; simp at hlen
    | cons x g =>
      intro j hj
      have hstep : assignFun f (a :: I) (x :: g)
          = assignFun (fun y => if y = a then x else f y) I g := by
        simp [assignFun]
      cases j with
      | zero =>
        have ha : a ∉ I := (List.nodup_cons.mp hnd).1
        rw [hstep]
        simp only [List.getD_cons_zero]
        rw [assignFun_not_mem _ _ _ _ ha]
        simp
      | succ j =>
        rw [hstep]
        simp only [List.getD_cons_succ]
        exact ih _ g (List.nodup_cons.mp hnd).2 (by simpa using hlen) j (by simpa using hj)

theorem assignFun_mem (f : ℕ → ℚ) (I : List ℕ) (g : List ℚ) (x : ℕ) :
    assignFun f I g x = f x ∨ assignFun f I g x ∈ g := by
  induction I generalizing f g with
  | nil => left; simp [assignFun]
  | cons a I ih =>
    cases g with
    | nil => left; simp [assignFun]
    | cons y g =>
      have hstep : assignFun f (a :: I) (y :: g)
          = assignFun (fun z => if z = a then y else f z) I g := by
        simp [assignFun]
      rw [hstep]
      rcases ih (fun z => if z = a then y else f z) g with h | h
      · rw [h]
        by_cases hx : x = a
        · right; simp [hx]
        · left; simp [hx]
      · right
        exact List.mem_cons_of_mem _ h

theorem sortedDedup_eq_of_mem_iff (L M : List ℚ) (h : ∀ x, x ∈ L ↔ x ∈ M) :
    sortedDedup L = sortedDedup M := by
  have hndL : (sortedDedup L).Nodup := (sortedDedup_perm_dedup L).nodup_iff.mpr L.nodup_dedup
  have hndM : (sortedDedup M).Nodup := (sortedDedup_perm_dedup M).nodup_iff.mpr M.nodup_dedup
  have hmem : ∀ x, x ∈ sortedDedup L ↔ x ∈ sortedDedup M := by
    intro x
    rw [mem_sortedDedup, mem_sortedDedup]
    exact h x
  have hperm : (sortedDedup L).Perm (sortedDedup M) :=
    (List.perm_ext_iff_of_nodup hndL hndM).mpr hmem
  exact List.eq_of_perm_of_sorted hperm (List.sorted_insertionSort _ _)
    (List.sorted_insertionSort _ _)

theorem remapAll_rank_getD (L : List ℚ) (hnat : ∀ x ∈ L, ∃ m : ℕ, (m : ℚ) = x)
    (i : ℕ) (hi : i < L.length) :
    (remapAll L (sortedDedup L)).getD i 0
      = (((sortedDedup L).indexOf (L.getD i 0) : ℕ) : ℚ) := by
  rw [remapAll_eq_map]
  have hi2 : i < (L.map (applySteps (sortedDedup L).enum)).length := by
    rw [List.length_map]; exact hi
  rw [List.getD_eq_getElem _ 0 hi2, List.getElem_map, List.getD_eq_getElem L 0 hi]
  have hmem : L[i] ∈ sortedDedup L := (mem_sortedDedup L _).mpr (List.getElem_mem hi)
  have := applySteps_enumFrom (sortedDedup L) 0 L[i]
    (fun y hy => hnat y ((mem_sortedDedup L y).mp hy))
    (sortedDedup_sorted_lt L)
    (fun y hy => by
      obtain ⟨m, hm⟩ := hnat y ((mem_sortedDedup L y).mp hy)
      rw [← hm]
      exact_mod_cast Nat.zero_le m)
    hmem
  simp only [Nat.zero_add] at this
  exact this

theorem indexOf_castRange (k m : ℕ) (hm : m < k) :
    ((List.range k).map (fun t => ((t : ℕ) : ℚ))).indexOf ((m : ℕ) : ℚ) = m := by
  have hlen : ((List.range k).map (fun t => ((t : ℕ) : ℚ))).length = k := by
    rw [List.length_map, List.length_range]
  have hm2 : m < ((List.range k).map (fun t => ((t : ℕ) : ℚ))).length := by omega
  have hNm : ((List.range k).map (fun t => ((t : ℕ) : ℚ)))[m] = ((m : ℕ) : ℚ) := by
    simp only [List.getElem_map, List.getElem_range]
  have hnd : ((List.range k).map (fun t => ((t : ℕ) : ℚ))).Nodup :=
    List.Nodup.map (fun a b hab => by exact_mod_cast hab) (List.nodup_range k)
  have hmem : ((m : ℕ) : ℚ) ∈ (List.range k).map (fun t => ((t : ℕ) : ℚ)) := by
    rw [← hNm]
    exact List.getElem_mem hm2
  have hidx : ((List.range k).map (fun t => ((t : ℕ) : ℚ))).indexOf ((m : ℕ) : ℚ)
      < ((List.range k).map (fun t => ((t : ℕ) : ℚ))).length :=
    List.indexOf_lt_length.mpr hmem
  have hval := List.getElem_indexOf hidx
  exact (List.Nodup.getElem_inj_iff hnd).mp (by rw [hval, hNm])

theorem sum_sub_at (n i0 : ℕ) (hi : i0 < n) (f : ℕ → ℚ) (e : ℚ) :
    (∑ i in Finset.range n, (if i = i0 then f i - e else f i))
      = (∑ i in Finset.range n, f i) - e := by
  have hsplit : ∀ i, (if i = i0 then f i - e else f i) = f i - (if i = i0 then e else 0) := by
    intro i
    by_cases h : i = i0 <;> simp [h]
  simp only [hsplit]
  rw [Finset.sum_sub_distrib, Finset.sum_ite_eq' (Finset.range n) i0 (fun _ => e)]
  rw [if_pos (Finset.mem_range.mpr hi)]

theorem sum_ite_add_at (k m : ℕ) (hm : m < k) (S : ℕ → ℚ) (e : ℚ) :
    (∑ c in Finset.range k, (if c = m then e + S c else S c))
      = e + ∑ c in Finset.range k, S c := by
  have hsplit : ∀ c, (if c = m then e + S c else S c) = (if c = m then e else 0) + S c := by
    intro c
    by_cases h : c = m <;> simp [h]
  simp only [hsplit]
  rw [Finset.sum_add_distrib, Finset.sum_ite_eq' (Finset.range k) m (fun _ => e)]
  rw [if_pos (Finset.mem_range.mpr hm)]

theorem map_sum_congr_zip : ∀ (I : List ℕ) (g : List ℚ) (F : ℕ → ℚ) (G : ℚ → ℚ),
    I.length = g.length →
    (∀ j, j < I.length → F (I.getD j 0) = G (g.getD j 0)) →
    (I.map F).sum = (g.map G).sum := by
  intro I
  induction I with
  | nil =>
    intro g F G hlen _
    have : g = [] := by
      cases g with
      | nil => rfl
      | cons y g => simp at hlen
    rw [this]
    rfl
  | cons a I ih =>
    intro g F G hlen hpt
    cases g with
    | nil => simp at hlen
    | cons y g =>
      simp only [List.map_cons, List.sum_cons]
      have h0 := hpt 0 (by simp)
      simp only [List.getD_cons_zero] at h0
      rw [h0, ih g F G (by simpa using hlen) ?_]
      intro j hj
      have := hpt (j + 1) (by simpa using hj)
      simpa using this

theorem sum_map_const_list (l : List ℚ) (a : ℚ) (F : ℚ → ℚ) (h : ∀ x ∈ l, x = a) :
    (l.map F).sum = (l.length : ℚ) * F a := by
  induction l with
  | nil => simp
  | cons x l ih =>
    simp only [List.map_cons, List.sum_cons, List.length_cons]
    rw [h x (by simp), ih (fun y hy => h y (List.mem_cons_of_mem _ hy))]
    push_cast
    ring

theorem sum_range_eq_sum_list (n : ℕ) (F : ℕ → ℚ) (I : List ℕ)
    (hnd : I.Nodup) (hb : ∀ i ∈ I, i < n) (h0 : ∀ i, i < n → i ∉ I → F i = 0) :
    (∑ i in Finset.range n, F i) = (I.map F).sum := by
  have hsub : I.toFinset ⊆ Finset.range n := by
    intro i hi
    rw [Finset.mem_range]
    exact hb i (List.mem_toFinset.mp hi)
  rw [← Finset.sum_subset hsub ?_]
  · rw [List.sum_toFinset F hnd]
  · intro i hi hni
    exact h0 i (Finset.mem_range.mp hi) (fun hc => hni (List.mem_toFinset.mpr hc))

theorem sum_map_partition (k : ℕ) (F : ℚ → ℚ) :
    ∀ (g : List ℚ), (∀ x ∈ g, ∃ m, m < k ∧ x = ((m : ℕ) : ℚ)) →
    (g.map F).sum = ∑ c in Finset.range k,
      ((g.filter (fun x => decide (x = ((c : ℕ) : ℚ)))).map F).sum := by
  intro g
  induction g with
  | nil => simp
  | cons x g ih =>
    intro hval
    obtain ⟨m, hm, hxm⟩ := hval x (by simp)
    have hrest := fun y hy => hval y (List.mem_cons_of_mem _ hy)
    simp only [List.map_cons, List.sum_cons]
    rw [ih hrest]
    have hterm : ∀ c, (((x :: g).filter (fun z => decide (z = ((c : ℕ) : ℚ)))).map F).sum
        = (if c = m then F x + ((g.filter (fun z => decide (z = ((c : ℕ) : ℚ)))).map F).sum
           else ((g.filter (fun z => decide (z = ((c : ℕ) : ℚ)))).map F).sum) := by
      intro c
      by_cases hc : c = m
      · subst hc
        rw [List.filter_cons, if_pos (by simp [hxm]), if_pos rfl]
        simp
      · rw [List.filter_cons, if_neg ?_, if_neg hc]
        simp only [hxm, decide_eq_true_eq]
        exact_mod_cast fun hc2 => hc (by exact_mod_cast hc2.symm)
    calc F x + ∑ c in Finset.range k,
          ((g.filter (fun z => decide (z = ((c : ℕ) : ℚ)))).map F).sum
        = ∑ c in Finset.range k,
            (if c = m then F x + ((g.filter (fun z => decide (z = ((c : ℕ) : ℚ)))).map F).sum
             else ((g.filter (fun z => decide (z = ((c : ℕ) : ℚ)))).map F).sum) := by
          rw [sum_ite_add_at k m hm]
      _ = ∑ c in Finset.range k,
            (((x :: g).filter (fun z => decide (z = ((c : ℕ) : ℚ)))).map F).sum := by
          refine Finset.sum_congr rfl ?_
          intro c _
          rw [hterm c]

theorem sum_map_ite (g : List ℚ) (a y : ℚ) :
    (g.map (fun x => if x = a then y else 0)).sum
      = ((g.filter (fun x => decide (x = a))).length : ℚ) * y := by
  induction g with
  | nil => simp
  | cons x g ih =>
    simp only [List.map_cons, List.sum_cons, List.filter_cons]
    by_cases hx : x = a
    · rw [if_pos hx, if_pos (by simp [hx])]
      simp only [List.length_cons, ih]
      push_cast
      ring
    · rw [if_neg hx, if_neg (by simp [hx])]
      rw [ih]
      ring

/-- Characterization of the label-mass matrix: under the C4 hypotheses
(unique in-range label indices, matching lengths, label values exactly the
integers `0..k-1`), entry `(c, i)` of `Kg` is `1/num_labels[c]` exactly
when `i` is a labeled vertex whose padded label value `K[i]` is `c`. -/
theorem poissonKg_eq (n : ℕ) (I : List ℕ) (g : List ℚ)
    (hnd : I.Nodup) (hbound : ∀ i ∈ I, i < n)
    (hlen : g.length = I.length) (hne : g ≠ [])
    (hlab : sortedDedup g
      = (List.range (sortedDedup g).length).map (fun t => ((t : ℕ) : ℚ))) :
    ∀ i, i < n → ∀ c : ℕ,
      poissonKg n I g c i
        = if (i ∈ I ∧ assignFun (fun _ => g.getD 0 0) I g i = ((c : ℕ) : ℚ))
          then 1 / num_labels g c else 0 := by
  intro i hi c
  have hg0 : g.getD 0 0 ∈ g := by
    cases g with
    | nil => exact absurd rfl hne
    | cons x g => simp
  have hKmem : ∀ x, assignFun (fun _ => g.getD 0 0) I g x ∈ g := by
    intro x
    rcases assignFun_mem (fun _ => g.getD 0 0) I g x with h | h
    · rw [h]; exact hg0
    · exact h
  have hKlist_mem : ∀ y, y ∈ (List.range n).map (assignFun (fun _ => g.getD 0 0) I g)
      ↔ y ∈ g := by
    intro y
    constructor
    · intro hy
      obtain ⟨t, _, hty⟩ := List.mem_map.mp hy
      rw [← hty]
      exact hKmem t
    · intro hy
      obtain ⟨j, hj, hjy⟩ := List.mem_iff_getElem.mp hy
      have hjI : j < I.length := by omega
      have hIj : I.getD j 0 ∈ I := by
        have : I.getD j 0 = I[j] := List.getD_eq_getElem I 0 hjI
        rw [this]
        exact List.getElem_mem hjI
      refine List.mem_map.mpr ⟨I.getD j 0, List.mem_range.mpr (hbound _ hIj), ?_⟩
      rw [assignFun_at _ I g hnd hlen j hjI, ← hjy]
      exact List.getD_eq_getElem g 0 hj
  have hsd : sortedDedup ((List.range n).map (assignFun (fun _ => g.getD 0 0) I g))
      = sortedDedup g :=
    sortedDedup_eq_of_mem_iff _ _ hKlist_mem
  have hnat : ∀ x ∈ (List.range n).map (assignFun (fun _ => g.getD 0 0) I g),
      ∃ m : ℕ, (m : ℚ) = x := by
    intro x hx
    have hxg : x ∈ g := (hKlist_mem x).mp hx
    have hxsd : x ∈ sortedDedup g := (mem_sortedDedup g x).mpr hxg
    rw [hlab] at hxsd
    obtain ⟨m, _, hm⟩ := List.mem_map.mp hxsd
    exact ⟨m, hm⟩
  have hilen : i < ((List.range n).map (assignFun (fun _ => g.getD 0 0) I g)).length := by
    rw [List.length_map, List.length_range]; exact hi
  have hKi : ((List.range n).map (assignFun (fun _ => g.getD 0 0) I g)).getD i 0
      = assignFun (fun _ => g.getD 0 0) I g i := by
    rw [List.getD_eq_getElem _ 0 hilen, List.getElem_map, List.getElem_range]
  have hrank := remapAll_rank_getD ((List.range n).map (assignFun (fun _ => g.getD 0 0) I g))
    hnat i hilen
  rw [hsd, hKi] at hrank
  obtain ⟨m, hmk, hmval⟩ : ∃ m, m < (sortedDedup g).length ∧
      assignFun (fun _ => g.getD 0 0) I g i = ((m : ℕ) : ℚ) := by
    have hmem : assignFun (fun _ => g.getD 0 0) I g i ∈ sortedDedup g :=
      (mem_sortedDedup g _).mpr (hKmem i)
    rw [hlab] at hmem
    obtain ⟨m, hm, hmv⟩ := List.mem_map.mp hmem
    exact ⟨m, by rw [List.mem_range] at hm; exact hm, hmv.symm⟩
  have hidx : (sortedDedup g).indexOf (assignFun (fun _ => g.getD 0 0) I g i) = m := by
    rw [hmval, hlab]
    exact indexOf_castRange _ m hmk
  unfold poissonKg LabelsToVec
  simp only []
  rw [hsd, hrank, hidx]
  by_cases hIm : i ∈ I
  · simp only [if_pos hIm]
    by_cases hc : ((m : ℕ) : ℚ) = ((c : ℕ) : ℚ)
    · rw [if_pos hc, if_pos ⟨hIm, by rw [hmval]; exact hc⟩]
      ring
    · have hno : ¬ (i ∈ I ∧ assignFun (fun _ => g.getD 0 0) I g i = ((c : ℕ) : ℚ)) := by
        rintro ⟨_, hval⟩
        exact hc (by rw [← hmval]; exact hval)
      rw [if_neg hc, if_neg hno]
      ring
  · simp only [if_neg hIm]
    have hno : ¬ (i ∈ I ∧ assignFun (fun _ => g.getD 0 0) I g i = ((c : ℕ) : ℚ)) :=
      fun hcon => hIm hcon.1
    rw [if_neg hno]
    ring

theorem sortedDedup_getD_cast (g : List ℚ)
    (hlab : sortedDedup g
      = (List.range (sortedDedup g).length).map (fun t => ((t : ℕ) : ℚ)))
    (c : ℕ) (hc : c < (sortedDedup g).length) :
    (sortedDedup g).getD c 0 = ((c : ℕ) : ℚ) := by
  have hc2 : c < ((List.range (sortedDedup g).length).map
      (fun t => ((t : ℕ) : ℚ))).length := by
    rw [List.length_map, List.length_range]; exact hc
  conv_lhs => rw [hlab]
  rw [List.getD_eq_getElem _ 0 hc2]
  simp only [List.getElem_map, List.getElem_range]

theorem num_labels_eq_count (g : List ℚ)
    (hlab : sortedDedup g
      = (List.range (sortedDedup g).length).map (fun t => ((t : ℕ) : ℚ)))
    (c : ℕ) (hc : c < (sortedDedup g).length) :
    num_labels g c = ((g.filter (fun x => decide (x = ((c : ℕ) : ℚ)))).length : ℚ) := by
  unfold num_labels
  simp only [sortedDedup_getD_cast g hlab c hc]

theorem num_labels_ne_zero (g : List ℚ)
    (hlab : sortedDedup g
      = (List.range (sortedDedup g).length).map (fun t => ((t : ℕ) : ℚ)))
    (c : ℕ) (hc : c < (sortedDedup g).length) :
    num_labels g c ≠ 0 := by
  rw [num_labels_eq_count g hlab c hc]
  have hmem : ((c : ℕ) : ℚ) ∈ sortedDedup g := by
    have := sortedDedup_getD_cast g hlab c hc
    rw [← this]
    rw [List.getD_eq_getElem _ 0 hc]
    exact List.getElem_mem hc
  have hg : ((c : ℕ) : ℚ) ∈ g := (mem_sortedDedup g _).mp hmem
  have hfil : ((c : ℕ) : ℚ) ∈ g.filter (fun x => decide (x = ((c : ℕ) : ℚ))) :=
    List.mem_filter.mpr ⟨hg, by simp⟩
  have hpos : 0 < (g.filter (fun x => decide (x = ((c : ℕ) : ℚ)))).length :=
    List.length_pos.mpr (List.ne_nil_of_mem hfil)
  have hne0 : (g.filter (fun x => decide (x = ((c : ℕ) : ℚ)))).length ≠ 0 := by omega
  exact_mod_cast hne0

/-- The pre-centering source column sums to one: each class column of
`Kg` carries total mass `num_labels[c]·(1/num_labels[c]) = 1`. -/
theorem poissonKg_colsum (n : ℕ) (I : List ℕ) (g : List ℚ)
    (hnd : I.Nodup) (hbound : ∀ i ∈ I, i < n)
    (hlen : g.length = I.length) (hne : g ≠ [])
    (hlab : sortedDedup g
      = (List.range (sortedDedup g).length).map (fun t => ((t : ℕ) : ℚ)))
    (c : ℕ) (hc : c < (sortedDedup g).length) :
    (∑ i in Finset.range n, poissonKg n I g c i) = 1 := by
  have hKeq := poissonKg_eq n I g hnd hbound hlen hne hlab
  have hzero : ∀ i, i < n → i ∉ I → poissonKg n I g c i = 0 := by
    intro i hi hni
    rw [hKeq i hi c, if_neg (fun hcon => hni hcon.1)]
  rw [sum_range_eq_sum_list n _ I hnd hbound hzero]
  have hcongr := map_sum_congr_zip I g (fun i => poissonKg n I g c i)
    (fun x => if x = ((c : ℕ) : ℚ) then 1 / num_labels g c else 0) hlen.symm ?_
  · rw [hcongr, sum_map_ite, ← num_labels_eq_count g hlab c hc]
    rw [mul_one_div]
    exact div_self (num_labels_ne_zero g hlab c hc)
  · intro j hj
    have hjmem : I.getD j 0 ∈ I := by
      rw [List.getD_eq_getElem I 0 hj]
      exact List.getElem_mem hj
    show poissonKg n I g c (I.getD j 0)
      = if g.getD j 0 = ((c : ℕ) : ℚ) then 1 / num_labels g c else 0
    rw [hKeq (I.getD j 0) (hbound _ hjmem) c]
    rw [assignFun_at _ I g hnd hlen j hj]
    by_cases hx : g.getD j 0 = ((c : ℕ) : ℚ)
    · rw [if_pos ⟨hjmem, hx⟩, if_pos hx]
    · rw [if_neg (fun hcon => hx hcon.2), if_neg hx]

theorem center_fold_sum (n : ℕ) (cv nl : ℕ → ℚ) (c : ℕ) :
    ∀ (pairs : List (ℕ × ℚ)) (b : ℕ → ℕ → ℚ), (∀ q ∈ pairs, q.1 < n) →
    (∑ i in Finset.range n,
      (pairs.foldl (fun b p => fun i c' =>
        if i = p.1 then b i c' - cv c' / nl (⌊p.2⌋.toNat) else b i c') b) i c)
    = (∑ i in Finset.range n, b i c)
      - (pairs.map (fun q => cv c / nl (⌊q.2⌋.toNat))).sum := by
  intro pairs
  induction pairs with
  | nil => intro b _; simp
  | cons q pairs ih =>
    intro b hb
    simp only [List.foldl_cons, List.map_cons, List.sum_cons]
    rw [ih _ (fun q' hq' => hb q' (List.mem_cons_of_mem _ hq'))]
    have hq1 : q.1 < n := hb q (by simp)
    have hs := sum_sub_at n q.1 hq1 (fun i => b i c) (cv c / nl (⌊q.2⌋.toNat))
    simp only [] at hs ⊢
    rw [hs]
    ring

/-- C4: with unique in-range label indices and label values exactly the
integers `0..k-1`, the assembled source matrix `b` places weight
`1/num_labels[c]` at each labeled vertex of class `c` (and `0` at every
unlabeled vertex) before centering, and after the per-class mean
subtraction every class column of `b` sums exactly to zero. -/
theorem poisson_source_centered (n : ℕ) (I : List ℕ) (g : List ℚ)
    (hnd : I.Nodup) (hbound : ∀ i ∈ I, i < n)
    (hlen : g.length = I.length) (hne : g ≠ [])
    (hlab : sortedDedup g
      = (List.range (sortedDedup g).length).map (fun t => ((t : ℕ) : ℚ))) :
    (∀ j, j < I.length → ∀ c : ℕ,
      poissonB0 n I g (I.getD j 0) c
        = if g.getD j 0 = ((c : ℕ) : ℚ) then 1 / num_labels g c else 0) ∧
    (∀ i, i < n → i ∉ I → ∀ c : ℕ, poissonB0 n I g i c = 0) ∧
    (∀ c, c < (sortedDedup g).length →
      (∑ i in Finset.range n, poissonB n I g i c) = 0) := by
  have hKeq := poissonKg_eq n I g hnd hbound hlen hne hlab
  refine ⟨?_, ?_, ?_⟩
  · intro j hj c
    have hjmem : I.getD j 0 ∈ I := by
      rw [List.getD_eq_getElem I 0 hj]
      exact List.getElem_mem hj
    unfold poissonB0
    rw [hKeq (I.getD j 0) (hbound _ hjmem) c, assignFun_at _ I g hnd hlen j hj]
    by_cases hx : g.getD j 0 = ((c : ℕ) : ℚ)
    · rw [if_pos ⟨hjmem, hx⟩, if_pos hx]
    · rw [if_neg (fun hcon => hx hcon.2), if_neg hx]
  · intro i hi hni c
    unfold poissonB0
    rw [hKeq i hi c, if_neg (fun hcon => hni hcon.1)]
  · intro c hc
    have hk0 : (sortedDedup g).length ≠ 0 := by omega
    have hkQ : ((sortedDedup g).length : ℚ) ≠ 0 := by exact_mod_cast hk0
    have hbp : ∀ q ∈ I.zip g, q.1 < n := by
      intro q hq
      have := List.of_mem_zip hq
      exact hbound q.1 this.1
    -- the centering loop subtracts, in total, k · (1/k) = 1 from each column
    have hfold := center_fold_sum n (poissonCvec n I g) (num_labels g) c
      (I.zip g) (poissonB0 n I g) hbp
    have hcol : (∑ i in Finset.range n, poissonB0 n I g i c) = 1 := by
      unfold poissonB0
      exact poissonKg_colsum n I g hnd hbound hlen hne hlab c hc
    have hcv : poissonCvec n I g c = 1 / ((sortedDedup g).length : ℚ) := by
      unfold poissonCvec
      rw [poissonKg_colsum n I g hnd hbound hlen hne hlab c hc]
    have hsnd : (I.zip g).map (fun q => poissonCvec n I g c / num_labels g (⌊q.2⌋.toNat))
        = g.map (fun x => poissonCvec n I g c / num_labels g (⌊x⌋.toNat)) := by
      have hzs : (I.zip g).map Prod.snd = g :=
        List.map_snd_zip I g (le_of_eq hlen)
      calc (I.zip g).map (fun q => poissonCvec n I g c / num_labels g (⌊q.2⌋.toNat))
          = ((I.zip g).map Prod.snd).map
              (fun x => poissonCvec n I g c / num_labels g (⌊x⌋.toNat)) := by
            rw [List.map_map]
            rfl
        _ = g.map (fun x => poissonCvec n I g c / num_labels g (⌊x⌋.toNat)) := by
            rw [hzs]
    have hval : ∀ x ∈ g, ∃ m, m < (sortedDedup g).length ∧ x = ((m : ℕ) : ℚ) := by
      intro x hx
      have hxs : x ∈ sortedDedup g := (mem_sortedDedup g x).mpr hx
      rw [hlab] at hxs
      obtain ⟨m, hm, hmv⟩ := List.mem_map.mp hxs
      exact ⟨m, by rw [List.mem_range] at hm; exact hm, hmv.symm⟩
    have hterm : ∀ c', c' < (sortedDedup g).length →
        ((g.filter (fun x => decide (x = ((c' : ℕ) : ℚ)))).map
          (fun x => poissonCvec n I g c / num_labels g (⌊x⌋.toNat))).sum
        = poissonCvec n I g c := by
      intro c' hc'
      have hall : ∀ x ∈ g.filter (fun x => decide (x = ((c' : ℕ) : ℚ))),
          x = ((c' : ℕ) : ℚ) := by
        intro x hx
        have := List.mem_filter.mp hx
        exact of_decide_eq_true this.2
      rw [sum_map_const_list _ ((c' : ℕ) : ℚ) _ hall]
      have hfl : (⌊((c' : ℕ) : ℚ)⌋).toNat = c' := by
        rw [Int.floor_natCast]
        exact Int.toNat_natCast c'
      rw [hfl, ← num_labels_eq_count g hlab c' hc']
      rw [← mul_div_assoc, mul_comm (num_labels g c') (poissonCvec n I g c),
        mul_div_assoc, div_self (num_labels_ne_zero g hlab c' hc'), mul_one]
    have hsum : (g.map (fun x => poissonCvec n I g c / num_labels g (⌊x⌋.toNat))).sum
        = 1 := by
      rw [sum_map_partition (sortedDedup g).length _ g hval]
      calc (∑ c' in Finset.range (sortedDedup g).length,
            ((g.filter (fun x => decide (x = ((c' : ℕ) : ℚ)))).map
              (fun x => poissonCvec n I g c / num_labels g (⌊x⌋.toNat))).sum)
          = ∑ c' in Finset.range (sortedDedup g).length, poissonCvec n I g c :=
            Finset.sum_congr rfl (fun c' hc' => hterm c' (Finset.mem_range.mp hc'))
        _ = ((sortedDedup g).length : ℚ) * poissonCvec n I g c := by
            rw [Finset.sum_const, Finset.card_range, nsmul_eq_mul]
        _ = 1 := by
            rw [hcv]
            field_simp
    unfold poissonB
    rw [hfold, hcol, hsnd, hsum]
    norm_num

/-- Witness for C4 at the concrete instance `n = 3`, `I = [0, 2]`,
`g = [0, 1]` (two classes, one labeled example each). -/
theorem poisson_source_centered_witness :
    (sortedDedup [(0 : ℚ), 1]
      = (List.range (sortedDedup [(0 : ℚ), 1]).length).map (fun t => ((t : ℕ) : ℚ))) ∧
    ((∀ j, j < ([0, 2] : List ℕ).length → ∀ c : ℕ,
      poissonB0 3 [0, 2] [0, 1] (([0, 2] : List ℕ).getD j 0) c
        = if ([(0 : ℚ), 1].getD j 0) = ((c : ℕ) : ℚ) then 1 / num_labels [0, 1] c else 0) ∧
     (∀ i, i < 3 → i ∉ ([0, 2] : List ℕ) → ∀ c : ℕ, poissonB0 3 [0, 2] [0, 1] i c = 0) ∧
     (∀ c, c < (sortedDedup [(0 : ℚ), 1]).length →
       (∑ i in Finset.range 3, poissonB 3 [0, 2] [0, 1] i c) = 0)) := by
  have hlab : sortedDedup [(0 : ℚ), 1]
      = (List.range (sortedDedup [(0 : ℚ), 1]).length).map (fun t => ((t : ℕ) : ℚ)) := by
    with_unfolding_all decide
  exact ⟨hlab, poisson_source_centered 3 [0, 2] [0, 1] (by decide)
    (by decide) rfl (by decide) hlab⟩

end GraphLearning
